import Mathlib

/-!
Verification development for the task scheduling and self-healing
verification pipeline of the VIBE_FACTORY repository.

The definitions below are shallow embeddings of the Python source in
`src/core/coder.py` (classes `EnvironmentManager` and `Coder`).  Pure string
manipulation is modelled over `List Char` (a Python `str` is a sequence of
code points); Python dictionaries are modelled as insertion-ordered
association lists with Python's `d[k] = v` update semantics; external
effects (the AI oracle, the sandboxed child process, the file system) are
modelled as explicit parameters carrying the deterministic responses the
code would observe.
-/

namespace VibeFactory

/-! ## Python string primitives over `List Char` -/

/-- Whitespace characters removed by Python's `str.strip()`
(space, tab, newline, carriage return, vertical tab, form feed). -/
def pyIsSpace (c : Char) : Bool :=
  c == ' ' || c == '\t' || c == '\n' || c == '\r' || c == Char.ofNat 11 || c == Char.ofNat 12

/-- Python `str.strip()`: remove leading and trailing whitespace. -/
def stripChars (l : List Char) : List Char :=
  ((l.dropWhile pyIsSpace).reverse.dropWhile pyIsSpace).reverse

/-- Python `str.split(sep)` for a single-character separator:
empty input gives one empty field, and every separator occurrence starts a
new field. -/
def splitOnChar (sep : Char) : List Char → List (List Char)
  | [] => [[]]
  | c :: cs =>
    if c == sep then [] :: splitOnChar sep cs
    else
      match splitOnChar sep cs with
      | [] => [[c]]
      | l :: ls => (c :: l) :: ls

/-- Python `content.split('\n')`. -/
def splitNl (l : List Char) : List (List Char) := splitOnChar '\n' l

/-- Python `str.startswith(pat)`. -/
def leadsWith : List Char → List Char → Bool
  | [], _ => true
  | _ :: _, [] => false
  | p :: ps, c :: cs => p == c && leadsWith ps cs

/-- Python's substring test `pat in l`. -/
def containsSub (pat : List Char) : List Char → Bool
  | [] => pat.isEmpty
  | c :: cs => leadsWith pat (c :: cs) || containsSub pat cs

/-- Python `str.upper()` (ASCII behaviour, which is all the source uses). -/
def upperChars (l : List Char) : List Char := l.map Char.toUpper

/-- Python `str.endswith(pat)`. -/
def endsWithL (pat l : List Char) : Bool := leadsWith pat.reverse l.reverse

/-- If `pre` is a leading slice of `l`, return the remainder. -/
def stripLeading : List Char → List Char → Option (List Char)
  | [], l => some l
  | _ :: _, [] => none
  | p :: ps, c :: cs => if p == c then stripLeading ps cs else none

/-- Python `str.find(pat)` (`none` models the `-1` of Python). -/
def findSubIdx (pat : List Char) : List Char → Option Nat
  | [] => if pat.isEmpty then some 0 else none
  | c :: cs => if leadsWith pat (c :: cs) then some 0 else (findSubIdx pat cs).map (· + 1)

/-! ## Data model

`Task` mirrors `schema/project.py::Task` restricted to the fields the
embedded operations read (`id`, `title`, `target_path`, `dependencies`).
The remaining fields (`description`, `verification`, `priority`, `status`,
`metadata`) are never inspected by the scheduling, dependency-detection or
retry logic modelled here. -/

structure Task where
  id : String
  title : String
  target_path : String
  dependencies : List String
  deriving DecidableEq, Repr

/-! ## Python dictionaries as insertion-ordered association lists -/

/-- An insertion-ordered Python dictionary with `String` keys. -/
abbrev Dict (α : Type) := List (String × α)

/-- Python `d[k]` as an option (`d.get(k)`). -/
def dictLookup (d : Dict α) (k : String) : Option α :=
  (d.find? (fun p => p.1 == k)).map (·.2)

/-- Python `k in d`. -/
def dictContains (d : Dict α) (k : String) : Bool :=
  d.any (fun p => p.1 == k)

/-- Python `d[k] = v`: update the value in place if the key is present
(keeping its position), otherwise append a new entry. -/
def dictSet (d : Dict α) (k : String) (v : α) : Dict α :=
  match d with
  | [] => [(k, v)]
  | p :: rest => if p.1 == k then (k, v) :: rest else p :: dictSet rest k v

/-! ## `Coder._topological_sort` (src/core/coder.py lines 291-337)

Kahn's algorithm over the task dependency relation.  The `while queue:`
loop is embedded with an explicit fuel argument; the wrapper passes
`queue.length + degSum deg`, which bounds the number of loop iterations
(each iteration pops one task, and every enqueue it performs is paid for
by an in-degree entry strictly decreasing to zero), so the fuel-exhaustion
branch is never taken and the embedding computes exactly what the Python
loop computes. -/

/-- `graph = {task.id: [] for task in tasks}`. -/
def initGraph (tasks : List Task) : Dict (List String) :=
  tasks.foldl (fun g t => dictSet g t.id []) []

/-- `in_degree = {task.id: 0 for task in tasks}`.  Values are `Int`
because Python integers are unbounded and the loop later decrements. -/
def initInDegree (tasks : List Task) : Dict Int :=
  tasks.foldl (fun g t => dictSet g t.id 0) []

/-- The edge-filling pass: for every task and every declared dependency
whose id is a key of the graph, append the task to the dependency's
adjacency list and increment the task's in-degree.  (The `if
task.dependencies:` truthiness guard of the source is equivalent to
iterating the possibly-empty list.)  The `getD` defaults are unreachable:
`dep_id` is checked to be a key, and `task.id` is a key of `in_degree` by
construction. -/
def fillEdges (tasks : List Task) (g : Dict (List String)) (deg : Dict Int) :
    Dict (List String) × Dict Int :=
  tasks.foldl
    (fun gd t =>
      t.dependencies.foldl
        (fun gd depId =>
          if dictContains gd.1 depId then
            (dictSet gd.1 depId ((dictLookup gd.1 depId).getD [] ++ [t.id]),
             dictSet gd.2 t.id ((dictLookup gd.2 t.id).getD 0 + 1))
          else gd)
        gd)
    (g, deg)

/-- `for task_id, degree in in_degree.items(): if degree == 0: ...` —
seed the queue, in dictionary order, with the first task matching each
zero-in-degree id (the inner `for task in tasks: ... break` search). -/
def seedQueue (tasks : List Task) (deg : Dict Int) : List Task :=
  deg.foldl
    (fun q p =>
      if p.2 == (0 : Int) then
        match tasks.find? (fun t => t.id == p.1) with
        | some t => q ++ [t]
        | none => q
      else q)
    []

/-- The body of the neighbour loop: decrement the neighbour's in-degree
and enqueue the (first) task with that id whenever the count reaches
exactly zero.  The `none` branch of the in-degree lookup is unreachable
(every recorded neighbour id is a key). -/
def pnStep (tasks : List Task) (dq : Dict Int × List Task) (nb : String) :
    Dict Int × List Task :=
  match dictLookup dq.1 nb with
  | none => dq
  | some d =>
    let deg' := dictSet dq.1 nb (d - 1)
    if d - 1 == 0 then
      match tasks.find? (fun t => t.id == nb) with
      | some t => (deg', dq.2 ++ [t])
      | none => (deg', dq.2)
    else (deg', dq.2)

/-- Processing the adjacency list of the task just popped. -/
def processNeighbors (tasks : List Task) (nbs : List String)
    (deg : Dict Int) (queue : List Task) : Dict Int × List Task :=
  nbs.foldl (pnStep tasks) (deg, queue)

/-- Fuel bound used by the `while queue:` loop embedding: queue length
plus the sum of the positive in-degree entries. -/
def degSum (deg : Dict Int) : Nat :=
  (deg.map (fun p => p.2.toNat)).sum

/-- The `while queue:` loop of `_topological_sort`. -/
def kahnLoopGo (tasks : List Task) (graph : Dict (List String)) :
    Nat → Dict Int → List Task → List Task → List Task
  | _, _, [], sortedTasks => sortedTasks
  | 0, _, _ :: _, sortedTasks => sortedTasks
  | fuel + 1, deg, cur :: rest, sortedTasks =>
    let dq := processNeighbors tasks ((dictLookup graph cur.id).getD []) deg rest
    kahnLoopGo tasks graph fuel dq.1 dq.2 (sortedTasks ++ [cur])

/-- Error message raised (`ValueError`) when a cycle is detected. -/
def cycleErrorMsg : String := "任务依赖关系中存在循环依赖"

/-- `Coder._topological_sort`.  Raising `ValueError` is modelled by
`Except.error`. -/
def topologicalSort (tasks : List Task) : Except String (List Task) :=
  let g0 := initGraph tasks
  let d0 := initInDegree tasks
  let gd := fillEdges tasks g0 d0
  let queue := seedQueue tasks gd.2
  let sortedTasks := kahnLoopGo tasks gd.1 (queue.length + degSum gd.2) gd.2 queue []
  if sortedTasks.length != tasks.length then .error cycleErrorMsg
  else .ok sortedTasks

/-! Ghost definitions used to state the scheduling claims. -/

/-- The ids of a task list, in declaration order. -/
def idsOf (tasks : List Task) : List String := tasks.map Task.id

/-- Number of dependencies of `t` (with multiplicity) that reference an
existing task and are not yet fulfilled by the partial output `S`. -/
def pendingDeps (tasks : List Task) (S : List Task) (t : Task) : Nat :=
  t.dependencies.countP (fun d => decide (d ∈ idsOf tasks) && !decide (d ∈ idsOf S))

/-- The multiset of edges out of id `x`: for each task, one occurrence of
its id per occurrence of `x` in its dependency list, in declaration
order.  This is exactly the adjacency list built by the edge-filling
pass. -/
def edgeTargets (tasks : List Task) (x : String) : List String :=
  tasks.foldr (fun t acc => List.replicate (t.dependencies.count x) t.id ++ acc) []

/-- `S` lists every task after all of its dependencies that exist in
`tasks`: the dependency ids of the `i`-th element all occur among the ids
of the first `i` elements. -/
def OrderedDeps (tasks : List Task) (S : List Task) : Prop :=
  ∀ i : Fin S.length, ∀ d ∈ (S.get i).dependencies,
    d ∈ idsOf tasks → d ∈ idsOf (S.take i.val)

/-- A dependency cycle among `tasks`: a nonempty list of member tasks in
which each task's successor (cyclically) is one of its dependencies. -/
def IsCycle (tasks : List Task) (c : List Task) : Prop :=
  c ≠ [] ∧ (∀ u ∈ c, u ∈ tasks) ∧
    List.Chain' (fun a b => b.id ∈ a.dependencies) (c ++ c.take 1)

/-- Invariant of Kahn's `while queue:` loop, relating the in-degree
dictionary `deg`, the queue `Q` and the partial output `S`. -/
structure KahnInv (tasks : List Task) (deg : Dict Int) (Q S : List Task) : Prop where
  sub : ∀ t ∈ S ++ Q, t ∈ tasks
  nodupIds : (idsOf (S ++ Q)).Nodup
  degEq : deg = tasks.map (fun u => (u.id, (pendingDeps tasks S u : Int)))
  ready : ∀ t ∈ Q, pendingDeps tasks S t = 0
  ordered : OrderedDeps tasks S
  unseen : ∀ t ∈ tasks, t ∉ S ++ Q → 0 < pendingDeps tasks S t

/-! ## `Coder._execute_single_task` retry loop (src/core/coder.py lines 468-575)

The loop is `while not completed and attempt_count < max_attempts:` with
`attempt_count += 1` at the top of every iteration.  The body (oracle
call, write, sandbox run, dependency repair, quality gate) is abstracted
as a deterministic function from the attempt number to one of three
outcomes: the iteration establishes `completed = True`, the iteration
falls through without completing, or the iteration raises an exception
(which the `except` clause converts into a fatal `RuntimeError` only once
`attempt_count >= max_attempts`).  Whatever the body does, the claims
about the loop's control structure hold for every such function.

The loop counter is embedded with fuel `maxAttempts`; since every
iteration increments `attempt_count` starting from `0` and the guard
requires `attempt_count < maxAttempts`, the loop performs at most
`maxAttempts` iterations, so this fuel is never exhausted and the
fuel-exhaustion branch (which returns the same budget-exceeded error the
loop would produce) is unreachable. -/

/-- Outcome of one iteration of the generate→write→run→repair body. -/
inductive BodyOutcome where
  | done : BodyOutcome
  | notDone : BodyOutcome
  | exc : String → BodyOutcome

/-- Result of the whole loop: how many iterations ran, and either normal
completion or the fatal `RuntimeError` message. -/
structure LoopResult where
  attempts : Nat
  outcome : Except String Unit
  deriving Repr

/-- `max_attempts = 10` (src/core/coder.py line 471). -/
def maxAttempts : Nat := 10

/-- The `RuntimeError` raised after the loop when the budget is exhausted
(line 573): `f"经过 {max_attempts} 次尝试后，任务 {task.id} ({task.title}) 仍未成功完成"`. -/
def budgetExceededMsg (task : Task) : String :=
  "经过 " ++ toString maxAttempts ++ " 次尝试后，任务 " ++ task.id ++ " (" ++ task.title
    ++ ") 仍未成功完成"

/-- The `RuntimeError` raised from the `except` clause at the attempt
ceiling (line 570): `f"AI生成代码失败，任务 {task.id} ({task.title}): {str(e)}"`. -/
def aiFailedMsg (task : Task) (e : String) : String :=
  "AI生成代码失败，任务 " ++ task.id ++ " (" ++ task.title ++ ("): " ++ e)

/-- The `while not completed and attempt_count < max_attempts:` loop. -/
def taskLoopGo (task : Task) (body : Nat → BodyOutcome) :
    Nat → Bool → Nat → LoopResult
  | fuel, completed, attemptCount =>
    if !completed && decide (attemptCount < maxAttempts) then
      match fuel with
      | 0 => ⟨attemptCount, .error (budgetExceededMsg task)⟩
      | fuel' + 1 =>
        match body (attemptCount + 1) with
        | .done => taskLoopGo task body fuel' true (attemptCount + 1)
        | .notDone => taskLoopGo task body fuel' false (attemptCount + 1)
        | .exc e =>
          if decide (maxAttempts ≤ attemptCount + 1) then
            ⟨attemptCount + 1, .error (aiFailedMsg task e)⟩
          else taskLoopGo task body fuel' false (attemptCount + 1)
    else if completed then ⟨attemptCount, .ok ()⟩
    else ⟨attemptCount, .error (budgetExceededMsg task)⟩

/-- `_execute_single_task`'s loop, started with `completed = False` and
`attempt_count = 0`. -/
def executeSingleTaskLoop (task : Task) (body : Nat → BodyOutcome) : LoopResult :=
  taskLoopGo task body maxAttempts false 0

/-! ## `Coder._has_substantial_content` (src/core/coder.py lines 404-448) -/

/-- The triple double-quote delimiter `"""`. -/
def tqDouble : List Char := ['"', '"', '"']

/-- The triple single-quote delimiter. -/
def tqSingle : List Char := [Char.ofNat 39, Char.ofNat 39, Char.ofNat 39]

/-- The comment/blank filtering loop: toggle multiline-comment state on
any line containing a triple-quote delimiter (skipping that line), skip
lines inside the multiline state, skip `#` comments and blank lines, and
collect the surviving lines in stripped form. -/
def codeLinesGo : Bool → List (List Char) → List (List Char)
  | _, [] => []
  | inML, line :: rest =>
    let stripped := stripChars line
    if containsSub tqDouble stripped || containsSub tqSingle stripped then
      codeLinesGo (!inML) rest
    else if inML then
      codeLinesGo inML rest
    else if leadsWith ['#'] stripped || stripped.isEmpty then
      codeLinesGo inML rest
    else
      stripped :: codeLinesGo inML rest

/-- The `code_lines` list computed by `_has_substantial_content`. -/
def codeLines (content : List Char) : List (List Char) :=
  codeLinesGo false (splitNl content)

/-- The structural-significance keyword list of line 443. -/
def substantialKeywords : List (List Char) :=
  ["def ", "class ", "if ", "for ", "while ", "try:", "except", "with ", "return",
   "yield", "import", "from"].map String.data

/-- `"TODO"`. -/
def todoMark : List Char := "TODO".data

/-- `"pass"`. -/
def passWord : List Char := "pass".data

/-- A line counted by the `substantial_lines` tally: contains one of the
keywords, or its stripped form exceeds 20 characters. -/
def isSubstantialLine (line : List Char) : Bool :=
  substantialKeywords.any (fun k => containsSub k line)
    || decide (20 < (stripChars line).length)

/-- `Coder._has_substantial_content`. -/
def hasSubstantialContent (content : List Char) : Bool :=
  let cls := codeLines content
  let hasTodo := cls.any (fun l => containsSub todoMark (upperChars l))
  let hasPass := cls.any (fun l => containsSub passWord l && stripChars l == passWord)
  let codeLineCount := cls.length
  let substantialLines := cls.countP isSubstantialLine
  !hasTodo && !hasPass && decide (10 ≤ codeLineCount) && decide (3 ≤ substantialLines)

/-! ## `Coder._test_run_file` (src/core/coder.py lines 664-722)

Environment preparation (PYTHONPATH, offscreen Qt, interpreter choice) has
no observable effect on the function's return value and is abstracted
away; the child process's behaviour is the function's only input. -/

/-- Behaviour of the spawned child process: it finished with an exit code
and stderr text, it exceeded the wall-clock budget
(`subprocess.TimeoutExpired`), or spawning failed with some other
exception whose text is `str(e)`. -/
inductive SpawnOutcome where
  | completed : Int → String → SpawnOutcome
  | timedOut : SpawnOutcome
  | spawnFailed : String → SpawnOutcome

/-- The hard wall-clock budget passed to `subprocess.run` (`timeout=30`). -/
def testRunTimeout : Nat := 30

/-- The diagnostic returned on `subprocess.TimeoutExpired` (line 720). -/
def timeoutMsg : String := "运行超时（30秒）"

/-- `Coder._test_run_file`: the `(success, error_msg)` pair returned for
each child-process behaviour.  Every branch returns a value; no exception
escapes to the caller. -/
def testRunFile : SpawnOutcome → Bool × String
  | .completed rc stderr => if rc == (0 : Int) then (true, "") else (false, stderr)
  | .timedOut => (false, timeoutMsg)
  | .spawnFailed e => (false, e)

/-! ## `Coder._fix_code_with_ai` (src/core/coder.py lines 724-821)

Prompt construction and the related-file probing only influence the text
sent to the oracle, not the control flow modelled here.  The oracle's
reply is the function's input. -/

/-- The dictionary returned by `BaseProvider.generate_response`:
`{"success": bool, "content": str, "error": str}`. -/
structure OracleResponse where
  success : Bool
  content : List Char
  error : List Char

/-- The fenced-block marker searched by the repair path. -/
def pyFence : List Char := "```python".data

/-- The generic fence. -/
def fenceMark : List Char := "```".data

/-- Lines 809-816: on a successful reply, slice out the first
```` ```python ```` block if present (up to the next fence, or to the end
when no closing fence exists).  The `none` branch after a positive
containment test is unreachable. -/
def extractFixedBlock (content : List Char) : List Char :=
  if containsSub pyFence content then
    match findSubIdx pyFence content with
    | none => content
    | some i =>
      let tail := content.drop (i + pyFence.length)
      match findSubIdx fenceMark tail with
      | some j => tail.take j
      | none => tail
  else content

/-- `_fix_code_with_ai` after the oracle reply arrives: on success the
fenced block of the reply, otherwise the file's current content. -/
def fixCodeApply (resp : OracleResponse) (currentCode : List Char) : List Char :=
  if resp.success then extractFixedBlock resp.content else currentCode

/-- `_fix_code_with_ai` instrumented against a deterministic stream of
oracle replies: the single `await self.ai_provider.generate_response(...)`
call consumes exactly one reply, and the remainder of the stream is
returned so the number of consumed replies is observable.  The empty
stream case cannot arise (the call always yields a reply). -/
def fixCodeOracleStep (responses : List OracleResponse) (currentCode : List Char) :
    List Char × List OracleResponse :=
  match responses with
  | [] => (currentCode, [])
  | r :: rest => (fixCodeApply r currentCode, rest)

/-! ## `EnvironmentManager.detect_missing_modules` (src/core/coder.py lines 33-110)

The five regular expressions are literal prologues followed by a greedy
one-or-more character class capture and a literal epilogue.  For the four
patterns with an epilogue, the epilogue's first character is exactly the
character excluded by the class, so the greedy match is the only possible
match and `re.findall`'s backtracking never produces a different capture.
`re.findall` scans left to right, resuming after each match and advancing
one character after each failure; `findAllGo` embeds that scan with fuel
`hay.length`, which bounds the number of scan steps (every step discards
at least one character), so fuel exhaustion is unreachable.

Each pattern has exactly one capture group, so `re.findall` returns
strings and the `isinstance(match, tuple)` branch of the source is dead.

The file-system probe for the local-directory test (`project_root_path`
joined with the candidate's first dot-segment, also under `src/` and
`lib/`) is abstracted as an optional boolean predicate on that first
segment; `none` models `project_root_path=None`. -/

/-- The apostrophe character. -/
def qChar : Char := Char.ofNat 39

/-- Character class `[^']`: the capture stops at an apostrophe. -/
def stopQuote (c : Char) : Bool := c == qChar

/-- Character class `[^,\s]`: the capture stops at a comma or whitespace. -/
def stopCommaSpace (c : Char) : Bool := c == ',' || pyIsSpace c

/-- The five patterns of `detect_missing_modules`, in source order, as
(prologue, capture-stopper, epilogue) triples. -/
def rePatterns : List (List Char × (Char → Bool) × List Char) :=
  [("ModuleNotFoundError: No module named ".data ++ [qChar], stopQuote, [qChar]),
   ("ImportError: No module named ".data ++ [qChar], stopQuote, [qChar]),
   ("No module named ".data, stopCommaSpace, []),
   ("cannot import name ".data ++ [qChar], stopQuote, [qChar] ++ " from".data),
   ("name ".data ++ [qChar], stopQuote, [qChar] ++ " is not defined".data)]

/-- Try to match one pattern at the head of `hay`; on success return the
capture and the remainder of `hay` after the whole match. -/
def tryMatchAt (pre : List Char) (stop : Char → Bool) (post : List Char)
    (hay : List Char) : Option (List Char × List Char) :=
  match stripLeading pre hay with
  | none => none
  | some afterPre =>
    let cap := afterPre.takeWhile (fun c => !stop c)
    let rest := afterPre.dropWhile (fun c => !stop c)
    if cap.isEmpty then none
    else if post.isEmpty then some (cap, rest)
    else
      match stripLeading post rest with
      | none => none
      | some afterPost => some (cap, afterPost)

/-- The left-to-right non-overlapping scan of `re.findall`. -/
def findAllGo (pre : List Char) (stop : Char → Bool) (post : List Char) :
    Nat → List Char → List (List Char)
  | 0, _ => []
  | _, [] => []
  | fuel + 1, c :: tl =>
    match tryMatchAt pre stop post (c :: tl) with
    | some capRest => capRest.1 :: findAllGo pre stop post fuel capRest.2
    | none => findAllGo pre stop post fuel tl

/-- `re.findall(pattern, error_msg)` for one of the five patterns. -/
def findAllCaptures (pre : List Char) (stop : Char → Bool) (post : List Char)
    (hay : List Char) : List (List Char) :=
  findAllGo pre stop post hay.length hay

/-- The skip-token filter of line 57. -/
def skipTokens : List (List Char) :=
  ["built-in", "file", "<frozen", "__main__"].map String.data

/-- `module.split('.')[0]`. -/
def firstPart (module : List Char) : List Char :=
  (splitOnChar '.' module).headD []

/-- Lines 79-87: the module paths implied by the task target paths —
for each `*.py` target, slashes and backslashes become dots and the
trailing `py` segment is dropped, kept only when more than one segment
results. -/
def taskTargetModules (tasksL : List Task) : List (List Char) :=
  tasksL.foldl
    (fun acc t =>
      let tp := t.target_path.data
      if endsWithL ".py".data tp then
        let parts := splitOnChar '.' (tp.map (fun c => if c == '/' then '.' else if c == Char.ofNat 92 then '.' else c))
        if 1 < parts.length then acc ++ [List.intercalate ['.'] parts.dropLast]
        else acc
      else acc)
    []

/-- The alias chain of lines 95-108 followed by the append.  (The source
has a second, unreachable `elif module == 'cv2'` arm.) -/
def appendResolved (modules : List (List Char)) (module : List Char) : List (List Char) :=
  if module == "cv2".data then modules ++ ["opencv-python".data]
  else if module == "PIL".data then modules ++ ["Pillow".data]
  else if module == "sklearn".data then modules ++ ["scikit-learn".data]
  else if module == "flask".data then modules ++ ["Flask".data]
  else if module == "jwt".data then modules ++ ["PyJWT".data]
  else modules ++ [module]

/-- The per-candidate body of the match loop (lines 55-108): dedup and
truthiness check, skip-token filter, local-directory check (only when a
project root was supplied), task-target-module check (only when a
non-empty task list was supplied — Python truthiness), then alias
resolution and append. -/
def processCandidate (probe : Option (List Char → Bool))
    (projectTasks : Option (List Task))
    (modules : List (List Char)) (module : List Char) : List (List Char) :=
  if !module.isEmpty && !modules.contains module then
    if !(skipTokens.any (fun s => containsSub s module)) then
      let isLocal :=
        match probe with
        | some p => p (firstPart module)
        | none => false
      if isLocal then modules
      else
        match projectTasks with
        | some ts =>
          if !ts.isEmpty then
            if (taskTargetModules ts).contains module then modules
            else appendResolved modules module
          else appendResolved modules module
        | none => appendResolved modules module
    else modules
  else modules

/-- `EnvironmentManager.detect_missing_modules`. -/
def detectMissingModules (errorMsg : List Char) (probe : Option (List Char → Bool))
    (projectTasks : Option (List Task)) : List (List Char) :=
  rePatterns.foldl
    (fun modules pat =>
      (findAllCaptures pat.1 pat.2.1 pat.2.2 errorMsg).foldl
        (processCandidate probe projectTasks) modules)
    []

/-- The stream of candidate names the function iterates over: all matches
of all five patterns, in pattern order then text order. -/
def candidatesOf (errorMsg : List Char) : List (List Char) :=
  rePatterns.foldl
    (fun acc pat => acc ++ findAllCaptures pat.1 pat.2.1 pat.2.2 errorMsg) []

/-! ## `Coder._write_code_to_file` (src/core/coder.py lines 994-1034)

File writing is modelled as returning the final content persisted to the
target path. -/

/-- The header-line test of lines 1005-1011 on a stripped line. -/
def isHeaderLine (stripped : List Char) : Bool :=
  (leadsWith ['#'] stripped
      && (containsSub "coding:".data stripped || containsSub "encoding:".data stripped))
    || leadsWith "import ".data stripped
    || leadsWith "from ".data stripped
    || leadsWith "#!/usr/bin".data stripped
    || leadsWith "<?php".data stripped
    || leadsWith "/*".data stripped
    || leadsWith "//".data stripped

/-- The header-collection loop (lines 1002-1017): collect header lines,
also collecting comment and blank lines, and stop at the first
non-header, non-comment, non-blank line. -/
def headerLinesGo : List (List Char) → List (List Char)
  | [] => []
  | line :: rest =>
    let stripped := stripChars line
    if isHeaderLine stripped then line :: headerLinesGo rest
    else if !(leadsWith ['#'] stripped) && !stripped.isEmpty then []
    else line :: headerLinesGo rest

/-- `has_imports_in_new_code`: some of the first 10 lines of the new code
starts (after stripping) with `import ` or `from ` (line 1023). -/
def hasImportsTop (newLines : List (List Char)) : Bool :=
  (newLines.take 10).any
    (fun l => leadsWith "import ".data (stripChars l) || leadsWith "from ".data (stripChars l))

/-- `Coder._write_code_to_file`: the content actually persisted for the
given new code and previous (iteration-start) content. -/
def writeCodeToFile (newCode : List Char) (originalContent : List Char) : List Char :=
  let headerLs := headerLinesGo (splitNl originalContent)
  if !headerLs.isEmpty then
    if !(hasImportsTop (splitNl newCode)) then
      List.intercalate ['\n'] headerLs ++ '\n' :: newCode
    else newCode
  else newCode

/-! ## Concrete data used by scenario claims and witnesses -/

/-- Specification-side reading of a "structurally significant or long"
remaining line: it contains a definition/branch/loop/exception/resource
keyword or exceeds 20 characters.  (The remaining lines are already
stripped, which `c4_substantial_content_iff` proves makes this equivalent
to the source's re-stripping length test.) -/
def specSignificant (line : List Char) : Bool :=
  substantialKeywords.any (fun k => containsSub k line) || decide (20 < line.length)

/-- A 4-line file containing only a single bare no-op statement
(`"pass"` followed by three empty lines). -/
def fourLinePassFile : List Char := "pass\n\n\n".data

/-- Scenario task A: no dependencies. -/
def taskA : Task := ⟨"A", "Task A", "src/a.py", []⟩

/-- Scenario task B: depends on A. -/
def taskB : Task := ⟨"B", "Task B", "src/b.py", ["A"]⟩

/-- Scenario task C: depends on A. -/
def taskC : Task := ⟨"C", "Task C", "src/c.py", ["A"]⟩

/-- A task whose target path `Flask.py` implies the module path `Flask`. -/
def taskFlask : Task := ⟨"1", "Flask app", "Flask.py", []⟩

/-- Cyclic pair: P depends on Q. -/
def taskP : Task := ⟨"P", "Task P", "src/p.py", ["Q"]⟩

/-- Cyclic pair: Q depends on P. -/
def taskQ : Task := ⟨"Q", "Task Q", "src/q.py", ["P"]⟩

/-- Failure text `No module named Flask\nNo module named flask`: the
generic third pattern captures both `Flask` and `flask`. -/
def flaskErrorMsg : List Char := "No module named Flask\nNo module named flask".data

/-- Failure text `ModuleNotFoundError: No module named 'cv2'`. -/
def cv2ErrorMsg : List Char :=
  "ModuleNotFoundError: No module named ".data ++ [qChar] ++ "cv2".data ++ [qChar]

/-- Failure text `ModuleNotFoundError: No module named 'PIL'`. -/
def pilErrorMsg : List Char :=
  "ModuleNotFoundError: No module named ".data ++ [qChar] ++ "PIL".data ++ [qChar]

/-- An oracle reply with `success = False`. -/
def failedOracleResponse : OracleResponse := ⟨false, [], []⟩

end VibeFactory

namespace VibeFactory

/-! # Theorems -/

/-! ## Shared helper lemmas -/

/-- If the new content's first ten lines contain an import-style line, or
the previous content yields no header lines, `_write_code_to_file`
persists the new content verbatim. -/
theorem writeCodeToFile_eq_self {newCode orig : List Char}
    (h : hasImportsTop (splitNl newCode) = true ∨ headerLinesGo (splitNl orig) = []) :
    writeCodeToFile newCode orig = newCode := by
  unfold writeCodeToFile
  rcases h with h | h
  · simp [h]
  · simp [h]

/-! ## C3 — the verify-repair loop is bounded by ten iterations -/

/-- Invariant proof for the retry loop: started at any attempt count not
exceeding the budget, the loop never reports more than `maxAttempts`
attempts, and every fatal error message decomposes around the task's
identifier and title. -/
theorem taskLoopGo_spec (task : Task) (body : Nat → BodyOutcome) :
    ∀ (fuel : Nat) (completed : Bool) (ac : Nat), ac ≤ maxAttempts →
      (taskLoopGo task body fuel completed ac).attempts ≤ maxAttempts ∧
      (∀ m, (taskLoopGo task body fuel completed ac).outcome = .error m →
        ∃ a b c, m = a ++ task.id ++ b ++ task.title ++ c) := by
  have hbudget : ∃ a b c, budgetExceededMsg task = a ++ task.id ++ b ++ task.title ++ c :=
    ⟨"经过 " ++ toString maxAttempts ++ " 次尝试后，任务 ", " (", ") 仍未成功完成", rfl⟩
  intro fuel
  induction fuel with
  | zero =>
    intro completed ac hac
    simp only [taskLoopGo]
    split
    · exact ⟨hac, fun m hm => (Except.error.inj hm) ▸ hbudget⟩
    · split
      · exact ⟨hac, fun m hm => by simp at hm⟩
      · exact ⟨hac, fun m hm => (Except.error.inj hm) ▸ hbudget⟩
  | succ fuel' ih =>
    intro completed ac hac
    simp only [taskLoopGo]
    split
    · rename_i hguard
      have hlt : ac < maxAttempts := by
        rcases Bool.and_eq_true_iff.mp hguard with ⟨_, h2⟩
        exact of_decide_eq_true h2
      split
      · exact ih true (ac + 1) hlt
      · exact ih false (ac + 1) hlt
      · split
        · refine ⟨hlt, fun m hm => ?_⟩
          exact ⟨_, _, _, (Except.error.inj hm).symm⟩
        · exact ih false (ac + 1) hlt
    · split
      · exact ⟨hac, fun m hm => by simp at hm⟩
      · exact ⟨hac, fun m hm => (Except.error.inj hm) ▸ hbudget⟩

/-- C3: for every task and every deterministic sequence of body outcomes
(abstracting the oracle and sandbox responses of one iteration), the
verify-repair loop of `_execute_single_task` performs at most
`max_attempts = 10` iterations — the reported attempt count never exceeds
ten — and when the loop ends in the fatal `RuntimeError`, its message
contains the task identifier and title. -/
theorem c3_loop_bounded (task : Task) (body : Nat → BodyOutcome) :
    maxAttempts = 10 ∧
    (executeSingleTaskLoop task body).attempts ≤ maxAttempts ∧
    (∀ m, (executeSingleTaskLoop task body).outcome = .error m →
      ∃ a b c, m = a ++ task.id ++ b ++ task.title ++ c) := by
  refine ⟨rfl, ?_, ?_⟩
  · exact (taskLoopGo_spec task body maxAttempts false 0 (Nat.zero_le _)).1
  · exact (taskLoopGo_spec task body maxAttempts false 0 (Nat.zero_le _)).2

/-- Witness for `c3_loop_bounded`: a body that never completes exhausts
the ten-attempt budget and the fatal message names the task. -/
theorem c3_loop_bounded_witness :
    (executeSingleTaskLoop ⟨"7", "Demo", "src/demo.py", []⟩ (fun _ => .notDone)).attempts
        ≤ maxAttempts ∧
    ∃ a b c, budgetExceededMsg ⟨"7", "Demo", "src/demo.py", []⟩
        = a ++ "7" ++ b ++ "Demo" ++ c :=
  ⟨(c3_loop_bounded ⟨"7", "Demo", "src/demo.py", []⟩ (fun _ => .notDone)).2.1,
   (c3_loop_bounded ⟨"7", "Demo", "src/demo.py", []⟩ (fun _ => .notDone)).2.2
     (budgetExceededMsg ⟨"7", "Demo", "src/demo.py", []⟩) rfl⟩

/-! ## C4 — the content-quality gate -/

/-- The head of a `dropWhile` result does not satisfy the predicate. -/
theorem dropWhile_head_false (p : Char → Bool) :
    ∀ (l : List Char) (c : Char) (cs : List Char), l.dropWhile p = c :: cs → p c = false := by
  intro l
  induction l with
  | nil => intro c cs h; simp at h
  | cons a as ih =>
    intro c cs h
    rw [List.dropWhile_cons] at h
    split at h
    · exact ih c cs h
    · rename_i ha
      injection h with h1 _
      subst h1
      exact Bool.not_eq_true _ ▸ Bool.of_not_eq_true ha

/-- Python's `strip` is idempotent. -/
theorem stripChars_idem (l : List Char) : stripChars (stripChars l) = stripChars l := by
  unfold stripChars
  rcases hv : (l.dropWhile pyIsSpace).reverse.dropWhile pyIsSpace with _ | ⟨d, ds⟩
  · simp [hv]
  · have hd : pyIsSpace d = false :=
      dropWhile_head_false pyIsSpace (l.dropWhile pyIsSpace).reverse d ds hv
    rcases hrev : (d :: ds).reverse with _ | ⟨c, cs⟩
    · exact absurd (List.reverse_eq_nil_iff.mp hrev) (by simp)
    · have hsplit : (l.dropWhile pyIsSpace).reverse.takeWhile pyIsSpace ++ (d :: ds)
          = (l.dropWhile pyIsSpace).reverse := by
        rw [← hv]; exact List.takeWhile_append_dropWhile pyIsSpace _
    -- `c` is the head of `l.dropWhile pyIsSpace`, hence not whitespace.
      have hu : l.dropWhile pyIsSpace
          = (c :: cs) ++ ((l.dropWhile pyIsSpace).reverse.takeWhile pyIsSpace).reverse := by
        have h2 := congrArg List.reverse hsplit
        rw [List.reverse_append, List.reverse_reverse, hrev] at h2
        exact h2.symm
      have hc : pyIsSpace c = false := by
        refine dropWhile_head_false pyIsSpace l c
          (cs ++ ((l.dropWhile pyIsSpace).reverse.takeWhile pyIsSpace).reverse) ?_
        simpa using hu
      have step1 : (c :: cs).dropWhile pyIsSpace = c :: cs := by
        simp [List.dropWhile_cons, hc]
      rw [step1]
      have hcr : (c :: cs).reverse = d :: ds := by
        rw [← hrev, List.reverse_reverse]
      rw [hcr]
      have step2 : (d :: ds).dropWhile pyIsSpace = d :: ds := by
        simp [List.dropWhile_cons, hd]
      rw [step2]
      exact hrev

/-- Every remaining line collected by the comment-stripping loop is
already stripped. -/
theorem stripChars_of_mem_codeLinesGo :
    ∀ {b : Bool} {lines : List (List Char)} {x : List Char},
      x ∈ codeLinesGo b lines → stripChars x = x := by
  intro b lines
  induction lines generalizing b with
  | nil => intro x hx; simp [codeLinesGo] at hx
  | cons line rest ih =>
    intro x hx
    simp only [codeLinesGo] at hx
    split at hx
    · exact ih hx
    · split at hx
      · exact ih hx
      · split at hx
        · exact ih hx
        · rcases List.mem_cons.mp hx with h | h
          · rw [h]; exact stripChars_idem line
          · exact ih h

/-- C4: the content-quality gate accepts exactly the texts whose
remaining lines (after stripping block-comment spans, line comments and
blank lines) contain no bare `pass` line and no line with a `TODO`
marker (case-insensitively), number at least ten, and include at least
three structurally significant or long lines; and the 4-line file
consisting of a single bare `pass` is rejected. -/
theorem c4_substantial_content_iff :
    (∀ content : List Char,
      hasSubstantialContent content = true ↔
        ((∀ l ∈ codeLines content, l ≠ passWord) ∧
         (∀ l ∈ codeLines content, containsSub todoMark (upperChars l) = false) ∧
         10 ≤ (codeLines content).length ∧
         3 ≤ (codeLines content).countP specSignificant)) ∧
    hasSubstantialContent fourLinePassFile = false := by
  constructor
  · intro content
    have hstrip : ∀ l ∈ codeLines content, stripChars l = l :=
      fun l hl => stripChars_of_mem_codeLinesGo hl
    have hcount : (codeLines content).countP isSubstantialLine
        = (codeLines content).countP specSignificant := by
      refine List.countP_congr fun l hl => ?_
      unfold isSubstantialLine specSignificant
      rw [hstrip l hl]
    simp only [hasSubstantialContent, Bool.and_eq_true, Bool.not_eq_true', List.any_eq_false,
      decide_eq_true_eq, hcount]
    constructor
    · rintro ⟨⟨⟨htodo, hpass⟩, hlen⟩, hsub⟩
      refine ⟨?_, ?_, hlen, hsub⟩
      · intro l hl hlpass
        subst hlpass
        refine absurd ?_ (hpass passWord hl)
        exact ⟨by decide, by decide⟩
      · intro l hl
        have := htodo l hl
        simp only [Bool.not_eq_true] at this
        exact this
    · rintro ⟨hpass, htodo, hlen, hsub⟩
      have hA : ∀ x ∈ codeLines content, ¬containsSub todoMark (upperChars x) = true := by
        intro x hx
        simp [htodo x hx]
      have hB : ∀ x ∈ codeLines content,
          ¬(containsSub passWord x = true ∧ (stripChars x == passWord) = true) := by
        intro x hx hcontra
        rw [hstrip x hx] at hcontra
        exact hpass x hx (by simpa using hcontra.2)
      exact ⟨⟨⟨hA, hB⟩, hlen⟩, hsub⟩
  · decide

/-! ## C5 — sandbox timeout and spawn-failure outcomes -/

/-- C5: `_test_run_file` passes a hard 30-unit wall-clock budget to the
child process; on expiry it returns a non-success outcome whose
diagnostic identifies a timeout (the text contains the timeout
classification `超时`), and any other spawn failure is returned as a
non-success outcome carrying the underlying error text.  Every branch of
the embedded function returns a value, so no process-level exception
propagates to the caller. -/
theorem c5_sandbox_outcomes :
    testRunTimeout = 30 ∧
    testRunFile .timedOut = (false, timeoutMsg) ∧
    containsSub "超时".data timeoutMsg.data = true ∧
    (∀ e, testRunFile (.spawnFailed e) = (false, e)) := by
  refine ⟨rfl, rfl, by decide, fun e => rfl⟩

/-! ## C8 — alias resolution of detected dependency names -/

/-- C8: for the failure text `ModuleNotFoundError: No module named 'cv2'`
with no project root and no task list, `detect_missing_modules` resolves
the detected dependency to the distributable package name
`opencv-python` and the literal import name `cv2` is not in the result
(the full result also carries the quoted artifact `'cv2'` captured by the
generic third pattern); likewise the alias table maps `PIL` to
`Pillow`. -/
theorem c8_alias_resolution :
    detectMissingModules cv2ErrorMsg none none
      = ["opencv-python".data, [qChar] ++ "cv2".data ++ [qChar]] ∧
    "opencv-python".data ∈ detectMissingModules cv2ErrorMsg none none ∧
    "cv2".data ∉ detectMissingModules cv2ErrorMsg none none ∧
    detectMissingModules pilErrorMsg none none
      = ["Pillow".data, [qChar] ++ "PIL".data ++ [qChar]] ∧
    "Pillow".data ∈ detectMissingModules pilErrorMsg none none ∧
    "PIL".data ∉ detectMissingModules pilErrorMsg none none := by
  refine ⟨by decide, by decide, by decide, by decide, by decide, by decide⟩

/-! ## C6 — no local retry at the repair oracle call site -/

/-- C6 counterexample: the repair step's oracle call site performs no
local retry.  Offered a stream of three consecutive failing oracle
replies, `_fix_code_with_ai` consumes exactly one reply (two remain
unconsumed) and returns the current file content; the claimed local
retry loop (which would consume further replies after a failure) does not
exist in the code. -/
theorem c6_no_retry_counterexample :
    (fixCodeOracleStep [failedOracleResponse, failedOracleResponse, failedOracleResponse]
        "x = 1".data).2.length = 2 ∧
    (fixCodeOracleStep [failedOracleResponse, failedOracleResponse, failedOracleResponse]
        "x = 1".data).1 = "x = 1".data := by
  exact ⟨rfl, rfl⟩

/-- C6 amended: the repair call site makes exactly one oracle call per
invocation — it consumes exactly one reply from the response stream,
with no retry and no backoff — and a failed reply does not crash the
driver: the step returns the file's current content, leaving repeated
failures to exhaust the outer ten-iteration task bound. -/
theorem c6_single_oracle_call (r : OracleResponse) (rest : List OracleResponse)
    (code : List Char) (hfail : r.success = false) :
    (fixCodeOracleStep (r :: rest) code).2 = rest ∧
    (fixCodeOracleStep (r :: rest) code).1 = code := by
  refine ⟨rfl, ?_⟩
  simp [fixCodeOracleStep, fixCodeApply, hfail]

/-- Witness for `c6_single_oracle_call` at a concrete failing reply. -/
theorem c6_single_oracle_call_witness :
    (fixCodeOracleStep [failedOracleResponse] "a = 2".data).2 = [] ∧
    (fixCodeOracleStep [failedOracleResponse] "a = 2".data).1 = "a = 2".data :=
  c6_single_oracle_call failedOracleResponse [] "a = 2".data rfl

/-! ## C7 — exclusion of expected future artifacts -/

/-- C7 counterexample: a candidate name found in the failure text that
equals the module path implied by a task's target path can still appear
in the returned dependency set.  With one task targeting `Flask.py`
(module path `Flask`) and failure text containing both `Flask` and
`flask`, the candidate `Flask` is itself skipped, but the candidate
`flask` is alias-resolved to `Flask` and appended — so `Flask`, a
candidate found in the failure text that matches a task's module path,
is in the set returned by `detect_missing_modules`. -/
theorem c7_alias_reintroduction_counterexample :
    "Flask".data ∈ candidatesOf flaskErrorMsg ∧
    "Flask".data ∈ taskTargetModules [taskFlask] ∧
    "Flask".data ∈ detectMissingModules flaskErrorMsg none (some [taskFlask]) := by
  refine ⟨by decide, by decide, by decide⟩

/-- C7 amended: every candidate dependency name that equals the module
path implied by some task's target path is skipped when it is processed —
processing such a candidate never appends anything to the accumulated
dependency list (so the candidate itself is never submitted for
installation), although the same name may still enter the result as the
alias resolution of a different candidate. -/
theorem c7_candidate_skipped (probe : Option (List Char → Bool)) (ts : List Task)
    (modules : List (List Char)) (m : List Char)
    (hm : m ∈ taskTargetModules ts) :
    processCandidate probe (some ts) modules m = modules := by
  have hts : ts.isEmpty = false := by
    cases ts with
    | nil => simp [taskTargetModules] at hm
    | cons a l => rfl
  have hcont : (taskTargetModules ts).contains m = true := List.elem_iff.mpr hm
  unfold processCandidate
  simp only [hts, hcont]
  split
  · split
    · split
      · rfl
      · simp
    · rfl
  · rfl

/-- Witness for `c7_candidate_skipped`: processing the candidate `Flask`
against the task targeting `Flask.py` leaves the accumulated list
unchanged. -/
theorem c7_candidate_skipped_witness :
    processCandidate none (some [taskFlask]) [] "Flask".data = [] :=
  c7_candidate_skipped none [taskFlask] [] "Flask".data (by decide)

/-! ## C9 — header-line preservation in the WRITE step -/

/-- C9 counterexample: a header line of the previous version that is not
present in the new content is dropped, not re-prepended.  Previous
content `import os\nimport sys\n` has header line `import sys`; the new
content `import json\nprint(1)` does not contain it, yet because the new
content's first lines do contain an import line, the persisted file is
the new content verbatim and `import sys` is silently dropped. -/
theorem c9_header_drop_counterexample :
    "import sys".data ∈ headerLinesGo (splitNl "import os\nimport sys\n".data) ∧
    "import sys".data ∉ splitNl "import json\nprint(1)".data ∧
    "import sys".data ∉
      splitNl (writeCodeToFile "import json\nprint(1)".data "import os\nimport sys\n".data) := by
  refine ⟨by decide, by decide, by decide⟩

/-- Splitting never produces the empty list of fields. -/
theorem splitOnChar_ne_nil (sep : Char) (l : List Char) : splitOnChar sep l ≠ [] := by
  induction l with
  | nil => simp [splitOnChar]
  | cons c cs ih =>
    unfold splitOnChar
    split
    · simp
    · rcases h : splitOnChar sep cs with _ | ⟨x, xs⟩
      · exact absurd h ih
      · simp [h]

/-- No field produced by splitting contains the separator. -/
theorem not_sep_mem_of_mem_splitOnChar {sep : Char} :
    ∀ {l x : List Char}, x ∈ splitOnChar sep l → sep ∉ x := by
  intro l
  induction l with
  | nil =>
    intro x hx
    simp [splitOnChar] at hx
    simp [hx]
  | cons c cs ih =>
    intro x hx
    by_cases hcs : c == sep
    · simp only [splitOnChar, if_pos hcs] at hx
      rcases List.mem_cons.mp hx with h | h
      · simp [h]
      · exact ih h
    · simp only [splitOnChar, if_neg hcs] at hx
      rcases hsp : splitOnChar sep cs with _ | ⟨y, ys⟩
      · exact absurd hsp (splitOnChar_ne_nil sep cs)
      · rw [hsp] at hx
        rcases List.mem_cons.mp hx with h | h
        · subst h
          intro hmem
          rcases List.mem_cons.mp hmem with h | h
          · exact hcs (by simp [h])
          · exact ih (by rw [hsp]; exact List.mem_cons_self y ys) h
        · exact ih (by rw [hsp]; exact List.mem_cons_of_mem y h)

/-- Every line collected by the header loop is a line of the original
content. -/
theorem mem_of_mem_headerLinesGo :
    ∀ {lines : List (List Char)} {x : List Char}, x ∈ headerLinesGo lines → x ∈ lines := by
  intro lines
  induction lines with
  | nil => intro x hx; simp [headerLinesGo] at hx
  | cons line rest ih =>
    intro x hx
    simp only [headerLinesGo] at hx
    split at hx
    · rcases List.mem_cons.mp hx with h | h
      · exact h ▸ List.mem_cons_self line rest
      · exact List.mem_cons_of_mem line (ih h)
    · split at hx
      · simp at hx
      · rcases List.mem_cons.mp hx with h | h
        · exact h ▸ List.mem_cons_self line rest
        · exact List.mem_cons_of_mem line (ih h)

/-- Splitting a newline-free line glued with `'\n'` to a remainder yields
that line as the first field. -/
theorem splitNl_append_newline_cons {h : List Char} (hnl : '\n' ∉ h) (r : List Char) :
    splitNl (h ++ '\n' :: r) = h :: splitNl r := by
  induction h with
  | nil => simp [splitNl, splitOnChar]
  | cons c cs ih =>
    have hc : c ≠ '\n' := fun hc => hnl (hc ▸ List.mem_cons_self c cs)
    have hcs : '\n' ∉ cs := fun hm => hnl (List.mem_cons_of_mem c hm)
    have ih' : splitOnChar '\n' (cs ++ '\n' :: r) = cs :: splitOnChar '\n' r := ih hcs
    show splitOnChar '\n' ((c :: cs) ++ '\n' :: r) = (c :: cs) :: splitOnChar '\n' r
    simp only [List.cons_append, splitOnChar, List.append_eq]
    rw [if_neg (by simp [hc]), ih']

/-- Splitting the header block re-joined with newlines and glued to the
new content recovers the header lines followed by the new content's
lines. -/
theorem splitNl_intercalate_headers {hs : List (List Char)} (hne : hs ≠ [])
    (hnl : ∀ h ∈ hs, '\n' ∉ h) (r : List Char) :
    splitNl (List.intercalate ['\n'] hs ++ '\n' :: r) = hs ++ splitNl r := by
  induction hs with
  | nil => exact absurd rfl hne
  | cons h t ih =>
    cases t with
    | nil =>
      have : List.intercalate ['\n'] [h] = h := by simp [List.intercalate, List.intersperse]
      rw [this, splitNl_append_newline_cons (hnl h (List.mem_cons_self h [])) r]
      rfl
    | cons h₂ t₂ =>
      have hstep : List.intercalate ['\n'] (h :: h₂ :: t₂)
          = h ++ '\n' :: List.intercalate ['\n'] (h₂ :: t₂) := by
        simp [List.intercalate, List.intersperse]
      rw [hstep, List.append_assoc]
      have := splitNl_append_newline_cons (hnl h (List.mem_cons_self h _))
        (List.intercalate ['\n'] (h₂ :: t₂) ++ '\n' :: r)
      simp only [List.cons_append] at this ⊢
      rw [this, ih (by simp) (fun x hx => hnl x (List.mem_cons_of_mem h hx))]
      rfl

/-- C9 amended: the WRITE step preserves headers wholesale, not per line —
if the first ten lines of the new content contain no import-style line,
every header line of the previous version appears as a line of the
persisted file (all of them are re-prepended); otherwise the new content
is persisted verbatim, and previous header lines absent from it are
dropped. -/
theorem c9_write_header_preservation (newCode orig : List Char) :
    (hasImportsTop (splitNl newCode) = false →
      ∀ h ∈ headerLinesGo (splitNl orig), h ∈ splitNl (writeCodeToFile newCode orig)) ∧
    ((hasImportsTop (splitNl newCode) = true ∨ headerLinesGo (splitNl orig) = []) →
      writeCodeToFile newCode orig = newCode) := by
  constructor
  · intro hni h hmem
    rcases hhs : headerLinesGo (splitNl orig) with _ | ⟨x, xs⟩
    · rw [hhs] at hmem; simp at hmem
    · have hne : headerLinesGo (splitNl orig) ≠ [] := by rw [hhs]; simp
      have hw : writeCodeToFile newCode orig
          = List.intercalate ['\n'] (headerLinesGo (splitNl orig)) ++ '\n' :: newCode := by
        unfold writeCodeToFile
        simp [hhs, hni]
      rw [hw, splitNl_intercalate_headers hne
        (fun x hx => not_sep_mem_of_mem_splitOnChar (mem_of_mem_headerLinesGo hx)) newCode]
      exact List.mem_append_left _ hmem
  · exact writeCodeToFile_eq_self

/-- Witness for `c9_write_header_preservation`: with an import-free new
content, the header line of the previous version appears in the persisted
file. -/
theorem c9_write_header_preservation_witness :
    "import os".data ∈ splitNl (writeCodeToFile "print(1)".data "import os\nx = 1".data) :=
  (c9_write_header_preservation "print(1)".data "import os\nx = 1".data).1
    (by decide) "import os".data (by decide)

/-! ## C10 — artifact preservation when an oracle repair call fails -/

/-- C10 counterexample: after a failed repair oracle call the function
does return the file's current content unchanged, but the subsequent
write does not always leave the target file identical to what it held
before: with iteration-start content `#!/usr/bin/python\nx = 1` and
current file content `#!/usr/bin/python\nprint(2)` (no import line in its
first ten lines), the write prepends the shebang header again and the
persisted content differs from the pre-repair content. -/
theorem c10_artifact_change_counterexample :
    fixCodeApply failedOracleResponse "#!/usr/bin/python\nprint(2)".data
      = "#!/usr/bin/python\nprint(2)".data ∧
    writeCodeToFile (fixCodeApply failedOracleResponse "#!/usr/bin/python\nprint(2)".data)
        "#!/usr/bin/python\nx = 1".data
      ≠ "#!/usr/bin/python\nprint(2)".data := by
  refine ⟨by decide, by decide⟩

/-- C10 amended: when the repair oracle call returns `success = false`,
`_fix_code_with_ai` returns the file's current content unchanged, and the
subsequent write persists exactly that content provided the current
content's first ten lines contain an import-style line or the
iteration-start content yields no header lines; otherwise the
iteration-start header lines are prepended once more (so the repaired
code is preserved but header lines may be duplicated). -/
theorem c10_oracle_failure_preserves (resp : OracleResponse) (current orig : List Char)
    (hfail : resp.success = false) :
    fixCodeApply resp current = current ∧
    ((hasImportsTop (splitNl current) = true ∨ headerLinesGo (splitNl orig) = []) →
      writeCodeToFile (fixCodeApply resp current) orig = current) := by
  have h1 : fixCodeApply resp current = current := by
    simp [fixCodeApply, hfail]
  refine ⟨h1, fun h => ?_⟩
  rw [h1]
  exact writeCodeToFile_eq_self h

/-! ## C1/C2 — correctness of the dependency scheduler

The development below proves that `_topological_sort` returns a valid,
deterministic topological order on every acyclic task list with unique
identifiers, and raises the cycle `ValueError` whenever the dependency
relation has a cycle.  The proof follows Kahn's-algorithm structure: the
dictionaries built by the preparation passes are characterised as
association lists in task order, and the `while queue:` loop maintains
`KahnInv`. -/

/-- Under unique ids, two member tasks with the same id are equal. -/
theorem id_inj {tasks : List Task} (hn : (idsOf tasks).Nodup)
    {u v : Task} (hu : u ∈ tasks) (hv : v ∈ tasks) (h : u.id = v.id) : u = v :=
  List.inj_on_of_nodup_map hn hu hv h

/-- Membership in the id list. -/
theorem mem_idsOf {tasks : List Task} {d : String} :
    d ∈ idsOf tasks ↔ ∃ u ∈ tasks, u.id = d := List.mem_map

/-- The id list of a cons. -/
theorem idsOf_cons (a : Task) (rest : List Task) :
    idsOf (a :: rest) = a.id :: idsOf rest := rfl

/-- Under unique ids, the linear search `for task in tasks: if task.id ==
...` finds the member task itself. -/
theorem find_first_id {tasks : List Task} (hn : (idsOf tasks).Nodup)
    {u : Task} (hu : u ∈ tasks) :
    tasks.find? (fun t => t.id == u.id) = some u := by
  induction tasks with
  | nil => simp at hu
  | cons a rest ih =>
    have hn' := hn
    rw [idsOf_cons, List.nodup_cons] at hn'
    by_cases ha : a.id = u.id
    · rw [List.find?_cons_of_pos _ (by simpa using ha)]
      rcases List.mem_cons.mp hu with h | h
      · rw [h]
      · exact absurd (ha ▸ mem_idsOf.mpr ⟨u, h, rfl⟩) hn'.1
    · rw [List.find?_cons_of_neg _ (by simpa using ha)]
      rcases List.mem_cons.mp hu with h | h
      · exact absurd (congrArg Task.id h).symm ha
      · exact ih hn'.2 h

/-- Unfolding lemma for lookups. -/
theorem dictLookup_cons {α : Type} (p : String × α) (d : Dict α) (k : String) :
    dictLookup (p :: d) k = if p.1 == k then some p.2 else dictLookup d k := by
  by_cases h : (p.1 == k) = true
  · simp [dictLookup, List.find?_cons, h]
  · simp [dictLookup, List.find?_cons, h]

/-- Looking up a key just written. -/
theorem dictLookup_dictSet_self {α : Type} (d : Dict α) (k : String) (v : α) :
    dictLookup (dictSet d k v) k = some v := by
  induction d with
  | nil => simp [dictSet, dictLookup_cons]
  | cons p rest ih =>
    unfold dictSet
    split
    · simp [dictLookup_cons]
    · rename_i hne
      rw [dictLookup_cons, if_neg (by simpa using hne)]
      exact ih

/-- Looking up another key after a write. -/
theorem dictLookup_dictSet_ne {α : Type} (d : Dict α) {k k' : String} (v : α)
    (h : k' ≠ k) : dictLookup (dictSet d k v) k' = dictLookup d k' := by
  induction d with
  | nil =>
    simp only [dictSet, dictLookup_cons]
    rw [if_neg (by simpa using fun e => h e.symm)]
  | cons p rest ih =>
    unfold dictSet
    split
    · rename_i hk
      have hp : p.1 = k := by simpa using hk
      rw [dictLookup_cons, dictLookup_cons]
      rw [if_neg (by simpa using fun e => h e.symm), if_neg (by simp [hp]; exact fun e => h e.symm)]
    · rw [dictLookup_cons, dictLookup_cons]
      split
      · rfl
      · exact ih

/-- Writing a fresh key appends it. -/
theorem dictSet_append_of_not_contains {α : Type} {d : Dict α} {k : String} (v : α)
    (h : dictContains d k = false) : dictSet d k v = d ++ [(k, v)] := by
  induction d with
  | nil => simp [dictSet]
  | cons p rest ih =>
    unfold dictContains at h
    rw [List.any_cons] at h
    rcases Bool.or_eq_false_iff.mp h with ⟨h1, h2⟩
    unfold dictSet
    rw [if_neg (by simp [h1]), ih h2]
    simp

/-- Looking up a member task's id in a dictionary keyed by all task ids,
in task order, yields that task's value (unique ids). -/
theorem dictLookup_map_self {tasks : List Task} (hn : (idsOf tasks).Nodup)
    {α : Type} (f : Task → α) {t : Task} (ht : t ∈ tasks) :
    dictLookup (tasks.map (fun u => (u.id, f u))) t.id = some (f t) := by
  induction tasks with
  | nil => simp at ht
  | cons a rest ih =>
    have hn' := hn
    rw [idsOf_cons, List.nodup_cons] at hn'
    rw [List.map_cons, dictLookup_cons]
    by_cases ha : a.id = t.id
    · rcases List.mem_cons.mp ht with h | h
      · rw [if_pos (by simpa using ha), h]
      · exact absurd (ha ▸ mem_idsOf.mpr ⟨t, h, rfl⟩) hn'.1
    · rw [if_neg (by simpa using ha)]
      rcases List.mem_cons.mp ht with h | h
      · exact absurd (congrArg Task.id h).symm ha
      · exact ih hn'.2 h

/-- A dictionary keyed by task ids contains exactly the ids. -/
theorem dictContains_map {tasks : List Task} {α : Type} (f : Task → α) (d : String) :
    dictContains (tasks.map (fun u => (u.id, f u))) d = decide (d ∈ idsOf tasks) := by
  induction tasks with
  | nil => simp [dictContains, idsOf]
  | cons a rest ih =>
    unfold dictContains at *
    rw [List.map_cons, List.any_cons, ih, idsOf_cons]
    by_cases h : a.id = d
    · simp [h]
    · simp [h, Ne.symm h]

/-- Updating a member task's key rewrites exactly its value (unique
ids). -/
theorem dictSet_map_self {tasks : List Task} (hn : (idsOf tasks).Nodup)
    {α : Type} (f : Task → α) {v : Task} (hv : v ∈ tasks) (x : α) :
    dictSet (tasks.map (fun u => (u.id, f u))) v.id x
      = tasks.map (fun u => (u.id, if u.id = v.id then x else f u)) := by
  induction tasks with
  | nil => simp at hv
  | cons a rest ih =>
    have hn' := hn
    rw [idsOf_cons, List.nodup_cons] at hn'
    rw [List.map_cons, List.map_cons]
    unfold dictSet
    split
    · rename_i ha
      have haid : a.id = v.id := by simpa using ha
      rw [if_pos haid]
      have hrest : ∀ u ∈ rest, (u.id, if u.id = v.id then x else f u) = (u.id, f u) := by
        intro u hu
        have hne : u.id ≠ v.id := by
          intro he
          exact hn'.1 (haid ▸ he ▸ mem_idsOf.mpr ⟨u, hu, rfl⟩)
        simp [hne]
      rw [List.map_congr_left hrest]
      rw [haid]
    · rename_i ha
      have hne : a.id ≠ v.id := by simpa using ha
      have hv' : v ∈ rest := by
        rcases List.mem_cons.mp hv with h | h
        · exact absurd (congrArg Task.id h).symm hne
        · exact h
      rw [if_neg hne, ih hn'.2 hv']

/-- Splitting a count over a disjunction of disjoint predicates. -/
theorem countP_or_split {l : List String} {p q r : String → Bool}
    (hpq : ∀ a ∈ l, p a = (q a || r a)) (hdisj : ∀ a ∈ l, r a = true → q a = false) :
    l.countP p = l.countP q + l.countP r := by
  induction l with
  | nil => simp
  | cons a rest ih =>
    rw [List.countP_cons, List.countP_cons, List.countP_cons]
    rw [ih (fun x hx => hpq x (List.mem_cons_of_mem a hx))
        (fun x hx => hdisj x (List.mem_cons_of_mem a hx))]
    have h1 := hpq a (List.mem_cons_self a rest)
    have h2 := hdisj a (List.mem_cons_self a rest)
    cases hq : q a <;> cases hr : r a <;> simp [hq, hr] at h1 h2 ⊢ <;> simp [h1] <;> omega

/-- With an empty partial output, the pending count is the number of
dependencies that exist among the task ids. -/
theorem pendingDeps_nil (tasks : List Task) (t : Task) :
    pendingDeps tasks [] t = t.dependencies.countP (fun d => decide (d ∈ idsOf tasks)) := by
  unfold pendingDeps
  refine List.countP_congr fun d _ => ?_
  simp [idsOf]

/-- Appending a newly scheduled task to the partial output settles
exactly its occurrences among the dependency list. -/
theorem pendingDeps_append_singleton {tasks S : List Task} {cur : Task}
    (hcurMem : cur.id ∈ idsOf tasks) (hcurS : cur.id ∉ idsOf S) (t : Task) :
    pendingDeps tasks S t
      = pendingDeps tasks (S ++ [cur]) t + t.dependencies.count cur.id := by
  unfold pendingDeps
  rw [List.count_eq_countP]
  refine countP_or_split (fun a _ => ?_) (fun a _ ha => ?_)
  · have hids : idsOf (S ++ [cur]) = idsOf S ++ [cur.id] := by simp [idsOf]
    by_cases hac : a = cur.id
    · subst hac
      simp [hids, hcurMem, hcurS]
    · simp [hids, hac]
  · have haeq : a = cur.id := by simpa using ha
    subst haeq
    simp [idsOf, List.mem_append]

/-- Pending counts only shrink as the output grows. -/
theorem pendingDeps_append_le (tasks S l : List Task) (t : Task) :
    pendingDeps tasks (S ++ l) t ≤ pendingDeps tasks S t := by
  unfold pendingDeps
  refine List.countP_mono_left fun a _ h => ?_
  rcases Bool.and_eq_true_iff.mp h with ⟨h1, h2⟩
  refine Bool.and_eq_true_iff.mpr ⟨h1, ?_⟩
  simp only [Bool.not_eq_true', decide_eq_false_iff_not] at h2 ⊢
  intro hmem
  exact h2 (by simp [idsOf] at hmem ⊢; exact Or.inl hmem)

/-- The pending count vanishes exactly when every existing dependency is
already scheduled. -/
theorem pendingDeps_eq_zero_iff {tasks S : List Task} {t : Task} :
    pendingDeps tasks S t = 0
      ↔ ∀ d ∈ t.dependencies, d ∈ idsOf tasks → d ∈ idsOf S := by
  unfold pendingDeps
  rw [List.countP_eq_zero]
  constructor
  · intro h d hd hmem
    have := h d hd
    simp only [Bool.and_eq_true, decide_eq_true_eq, Bool.not_eq_true',
      decide_eq_false_iff_not, not_and, not_not] at this
    exact this hmem
  · intro h d hd
    simp only [Bool.and_eq_true, decide_eq_true_eq, Bool.not_eq_true',
      decide_eq_false_iff_not, not_and]
    intro hmem
    simp [h d hd hmem]

/-- Every task listed by a dependency-ordered output has pending count
zero. -/
theorem pendingDeps_eq_zero_of_ordered {tasks S : List Task}
    (hord : OrderedDeps tasks S) {t : Task} (ht : t ∈ S) :
    pendingDeps tasks S t = 0 := by
  rcases List.mem_iff_get.mp ht with ⟨i, rfl⟩
  refine pendingDeps_eq_zero_iff.mpr fun d hd hmem => ?_
  have := hord i d hd hmem
  have hsub : idsOf (S.take i.val) ⊆ idsOf S := by
    intro x hx
    rcases mem_idsOf.mp hx with ⟨u, hu, rfl⟩
    exact mem_idsOf.mpr ⟨u, List.mem_of_mem_take hu, rfl⟩
  exact hsub this

/-- Unfolding lemma for the edge multiset. -/
theorem edgeTargets_cons (a : Task) (ts : List Task) (x : String) :
    edgeTargets (a :: ts) x
      = List.replicate (a.dependencies.count x) a.id ++ edgeTargets ts x := rfl

/-- Edge targets are ids of member tasks. -/
theorem mem_idsOf_of_mem_edgeTargets {ts : List Task} {x y : String}
    (h : y ∈ edgeTargets ts x) : y ∈ idsOf ts := by
  induction ts with
  | nil => simp [edgeTargets] at h
  | cons a rest ih =>
    rw [edgeTargets_cons] at h
    rw [idsOf_cons]
    rcases List.mem_append.mp h with h | h
    · rw [(List.mem_replicate.mp h).2]
      exact List.mem_cons_self _ _
    · exact List.mem_cons_of_mem _ (ih h)

/-- Counting a non-member id among the edge targets gives zero. -/
theorem count_edgeTargets_of_not_mem {ts : List Task} {x y : String}
    (h : y ∉ idsOf ts) : (edgeTargets ts x).count y = 0 := by
  induction ts with
  | nil => simp [edgeTargets]
  | cons a rest ih =>
    rw [edgeTargets_cons, List.count_append, List.count_replicate]
    rw [idsOf_cons] at h
    have hne : a.id ≠ y := fun e => h (e ▸ List.mem_cons_self _ _)
    rw [if_neg (by simpa using hne), ih (fun hm => h (List.mem_cons_of_mem _ hm))]

/-- Counting a member task's id among the edge targets out of `x` gives
the number of times that task depends on `x` (unique ids). -/
theorem count_edgeTargets_of_mem {ts : List Task} (hn : (idsOf ts).Nodup)
    {x : String} {t : Task} (ht : t ∈ ts) :
    (edgeTargets ts x).count t.id = t.dependencies.count x := by
  induction ts with
  | nil => simp at ht
  | cons a rest ih =>
    have hn' := hn
    rw [idsOf_cons, List.nodup_cons] at hn'
    rw [edgeTargets_cons, List.count_append, List.count_replicate]
    rcases List.mem_cons.mp ht with h | h
    · subst h
      rw [if_pos (by simp), count_edgeTargets_of_not_mem hn'.1]
      simp
    · have hne : a.id ≠ t.id := by
        intro he
        exact hn'.1 (he ▸ mem_idsOf.mpr ⟨t, h, rfl⟩)
      rw [if_neg (by simpa using hne), ih hn'.2 h]
      simp

/-- Unfolding lemma for in-degree sums. -/
theorem degSum_cons (p : String × Int) (d : Dict Int) :
    degSum (p :: d) = p.2.toNat + degSum d := by
  simp [degSum]

/-- A write trades the old value for the new one inside the sum. -/
theorem degSum_dictSet {d : Dict Int} {k : String} {x : Int} (v : Int)
    (h : dictLookup d k = some x) :
    degSum (dictSet d k v) + x.toNat = degSum d + v.toNat := by
  induction d with
  | nil => simp [dictLookup] at h
  | cons p rest ih =>
    rw [dictLookup_cons] at h
    unfold dictSet
    by_cases hk : (p.1 == k) = true
    · rw [if_pos hk] at h ⊢
      injection h with h
      rw [degSum_cons, degSum_cons]
      subst h
      omega
    · rw [if_neg hk] at h ⊢
      rw [degSum_cons, degSum_cons]
      have := ih h
      omega

/-- Unfolding lemma for the neighbour-processing fold. -/
theorem processNeighbors_nil (tasks : List Task) (deg : Dict Int) (q : List Task) :
    processNeighbors tasks [] deg q = (deg, q) := rfl

/-- One step of the neighbour-processing fold. -/
theorem processNeighbors_cons (tasks : List Task) (nb : String) (rest : List String)
    (deg : Dict Int) (q : List Task) :
    processNeighbors tasks (nb :: rest) deg q
      = processNeighbors tasks rest (pnStep tasks (deg, q) nb).1
          (pnStep tasks (deg, q) nb).2 := rfl

/-- The step when the neighbour's id is missing from the in-degree map
(unreachable in real runs). -/
theorem pnStep_none {deg : Dict Int} {nb : String} (tasks : List Task) (q : List Task)
    (h : dictLookup deg nb = none) : pnStep tasks (deg, q) nb = (deg, q) := by
  simp [pnStep, h]

/-- The step when the decremented count stays nonzero. -/
theorem pnStep_some_ne {deg : Dict Int} {nb : String} {d : Int} (tasks : List Task)
    (q : List Task) (h : dictLookup deg nb = some d) (hz : d - 1 ≠ 0) :
    pnStep tasks (deg, q) nb = (dictSet deg nb (d - 1), q) := by
  simp only [pnStep, h]
  rw [if_neg (by simpa using hz)]

/-- The step when the count reaches zero and the task is found. -/
theorem pnStep_some_zero {deg : Dict Int} {nb : String} {d : Int} {w : Task}
    (tasks : List Task) (q : List Task) (h : dictLookup deg nb = some d)
    (hz : d - 1 = 0) (hw : tasks.find? (fun t => t.id == nb) = some w) :
    pnStep tasks (deg, q) nb = (dictSet deg nb (d - 1), q ++ [w]) := by
  simp only [pnStep, h, hw]
  rw [if_pos (by simpa using hz)]

/-- The step when the count reaches zero but no task carries the id
(unreachable in real runs). -/
theorem pnStep_some_zero_none {deg : Dict Int} {nb : String} {d : Int}
    (tasks : List Task) (q : List Task) (h : dictLookup deg nb = some d)
    (hz : d - 1 = 0) (hw : tasks.find? (fun t => t.id == nb) = none) :
    pnStep tasks (deg, q) nb = (dictSet deg nb (d - 1), q) := by
  simp only [pnStep, h, hw]
  rw [if_pos (by simpa using hz)]

/-- Processing a popped task's adjacency list never increases the loop
measure `queue length + positive in-degree mass`. -/
theorem pn_measure (tasks : List Task) (nbs : List String) (deg : Dict Int)
    (q : List Task) :
    (processNeighbors tasks nbs deg q).2.length
        + degSum (processNeighbors tasks nbs deg q).1
      ≤ q.length + degSum deg := by
  induction nbs generalizing deg q with
  | nil => exact Nat.le_refl _
  | cons nb rest ih =>
    rw [processNeighbors_cons]
    rcases hlk : dictLookup deg nb with _ | dval
    · rw [pnStep_none tasks q hlk]
      exact ih deg q
    · have hsum := degSum_dictSet (dval - 1) hlk
      by_cases hz : dval - 1 = 0
      · have hdval : dval = 1 := by omega
        have hmass : degSum (dictSet deg nb (dval - 1)) + 1 = degSum deg := by
          rw [hdval] at hsum ⊢
          omega
        rcases hfind : tasks.find? (fun t => t.id == nb) with _ | w
        · rw [pnStep_some_zero_none tasks q hlk hz hfind]
          dsimp only
          have := ih (dictSet deg nb (dval - 1)) q
          omega
        · rw [pnStep_some_zero tasks q hlk hz hfind]
          dsimp only
          have := ih (dictSet deg nb (dval - 1)) (q ++ [w])
          simp only [List.length_append, List.length_singleton] at this
          omega
      · rw [pnStep_some_ne tasks q hlk hz]
        dsimp only
        have hle : (dval - 1).toNat ≤ dval.toNat := by omega
        have := ih (dictSet deg nb (dval - 1)) q
        omega

/-- Folding fresh-key writes appends the entries in order. -/
theorem foldl_dictSet_fresh {α : Type} (c : Task → α) :
    ∀ (ts : List Task) (acc : Dict α),
      (∀ t ∈ ts, dictContains acc t.id = false) → (idsOf ts).Nodup →
      ts.foldl (fun g t => dictSet g t.id (c t)) acc
        = acc ++ ts.map (fun t => (t.id, c t)) := by
  intro ts
  induction ts with
  | nil => intro acc _ _; simp
  | cons a rest ih =>
    intro acc hfresh hn
    rw [idsOf_cons, List.nodup_cons] at hn
    rw [List.foldl_cons, dictSet_append_of_not_contains _ (hfresh a (List.mem_cons_self a rest))]
    rw [ih (acc ++ [(a.id, c a)]) ?_ hn.2]
    · simp
    · intro t ht
      have h1 : dictContains acc t.id = false := hfresh t (List.mem_cons_of_mem a ht)
      have h2 : a.id ≠ t.id := fun e => hn.1 (e ▸ mem_idsOf.mpr ⟨t, ht, rfl⟩)
      unfold dictContains at h1 ⊢
      rw [List.any_append]
      simp [h1, h2]

/-- The initial in-degree dictionary lists every task id once, in
declaration order, with value zero. -/
theorem initInDegree_eq {tasks : List Task} (hn : (idsOf tasks).Nodup) :
    initInDegree tasks = tasks.map (fun u => (u.id, (0 : Int))) := by
  unfold initInDegree
  rw [foldl_dictSet_fresh (fun _ => (0 : Int)) tasks [] (by simp [dictContains]) hn]
  simp

/-- The initial adjacency dictionary lists every task id once, in
declaration order, with an empty list. -/
theorem initGraph_eq {tasks : List Task} (hn : (idsOf tasks).Nodup) :
    initGraph tasks = tasks.map (fun u => (u.id, ([] : List String))) := by
  unfold initGraph
  rw [foldl_dictSet_fresh (fun _ => ([] : List String)) tasks [] (by simp [dictContains]) hn]
  simp

/-- The edge multiset distributes over task-list append. -/
theorem edgeTargets_append (l₁ l₂ : List Task) (x : String) :
    edgeTargets (l₁ ++ l₂) x = edgeTargets l₁ x ++ edgeTargets l₂ x := by
  induction l₁ with
  | nil => simp [edgeTargets]
  | cons a rest ih =>
    rw [List.cons_append, edgeTargets_cons, edgeTargets_cons, ih, List.append_assoc]

/-- Characterisation of the inner dependency fold of the edge-filling
pass: each existing dependency occurrence appends the task to its
target's adjacency list and increments the task's in-degree. -/
theorem fillInner_eq {tasks : List Task} (hn : (idsOf tasks).Nodup)
    {t : Task} (ht : t ∈ tasks) :
    ∀ (ds : List String) (G : Task → List String) (D : Task → Int),
      ds.foldl
        (fun gd depId =>
          if dictContains gd.1 depId then
            (dictSet gd.1 depId ((dictLookup gd.1 depId).getD [] ++ [t.id]),
             dictSet gd.2 t.id ((dictLookup gd.2 t.id).getD 0 + 1))
          else gd)
        (tasks.map (fun u => (u.id, G u)), tasks.map (fun u => (u.id, D u)))
      = (tasks.map (fun u => (u.id, G u ++ List.replicate (ds.count u.id) t.id)),
         tasks.map (fun u => (u.id,
           D u + if u.id = t.id
             then (ds.countP (fun d => decide (d ∈ idsOf tasks)) : Int) else 0))) := by
  intro ds
  induction ds with
  | nil =>
    intro G D
    rw [List.foldl_nil]
    refine congrArg₂ Prod.mk ?_ ?_
    · refine (List.map_congr_left fun u _ => ?_).symm
      simp
    · refine (List.map_congr_left fun u _ => ?_).symm
      by_cases he : u.id = t.id <;> simp [he]
  | cons d ds' ih =>
    intro G D
    rw [List.foldl_cons]
    by_cases hd : d ∈ idsOf tasks
    · rcases mem_idsOf.mp hd with ⟨w, hw, rfl⟩
      rw [if_pos (by rw [dictContains_map]; simpa using hd)]
      rw [dictLookup_map_self hn G hw, dictLookup_map_self hn D ht]
      simp only [Option.getD_some]
      rw [dictSet_map_self hn G hw, dictSet_map_self hn D ht]
      have hG : tasks.map (fun u => (u.id, if u.id = w.id then G w ++ [t.id] else G u))
          = tasks.map (fun u => (u.id, if u.id = w.id then G u ++ [t.id] else G u)) := by
        refine List.map_congr_left fun u hu => ?_
        by_cases he : u.id = w.id
        · rw [id_inj hn hu hw he]
        · simp [he]
      have hD : tasks.map (fun u => (u.id, if u.id = t.id then D t + 1 else D u))
          = tasks.map (fun u => (u.id, if u.id = t.id then D u + 1 else D u)) := by
        refine List.map_congr_left fun u hu => ?_
        by_cases he : u.id = t.id
        · rw [id_inj hn hu ht he]
        · simp [he]
      rw [hG, hD, ih]
      refine congrArg₂ Prod.mk ?_ ?_
      · refine List.map_congr_left fun u hu => ?_
        by_cases he : u.id = w.id
        · have hcnt : (w.id :: ds').count u.id = ds'.count u.id + 1 := by
            simp [List.count_cons, he]
          rw [if_pos he, hcnt, List.replicate_succ, he]
          simp
        · have hwu : w.id ≠ u.id := fun e => he e.symm
          have hcnt : (w.id :: ds').count u.id = ds'.count u.id := by
            simp [List.count_cons, he, hwu]
          rw [if_neg he, hcnt]
      · refine List.map_congr_left fun u hu => ?_
        have hcnt : (w.id :: ds').countP (fun d => decide (d ∈ idsOf tasks))
            = ds'.countP (fun d => decide (d ∈ idsOf tasks)) + 1 := by
          simp [List.countP_cons, hd]
        by_cases he : u.id = t.id
        · rw [if_pos he, if_pos he, if_pos he, hcnt]
          refine congrArg (Prod.mk u.id) ?_
          push_cast
          ring
        · rw [if_neg he, if_neg he, if_neg he]
    · rw [if_neg (by rw [dictContains_map]; simpa using hd)]
      rw [ih]
      refine congrArg₂ Prod.mk ?_ ?_
      · refine List.map_congr_left fun u hu => ?_
        have hne : d ≠ u.id := fun e => hd (e ▸ mem_idsOf.mpr ⟨u, hu, rfl⟩)
        have hne' : u.id ≠ d := fun e => hne e.symm
        have hcnt : (d :: ds').count u.id = ds'.count u.id := by
          simp [List.count_cons, hne, hne']
        rw [hcnt]
      · refine List.map_congr_left fun u hu => ?_
        have hcnt : (d :: ds').countP (fun x => decide (x ∈ idsOf tasks))
            = ds'.countP (fun x => decide (x ∈ idsOf tasks)) := by
          simp [List.countP_cons, hd]
        rw [hcnt]

/-- Characterisation of the edge-filling pass: starting from the initial
dictionaries, it produces the full adjacency multiset and the number of
existing dependencies as in-degree, for every task. -/
theorem fillEdges_eq {tasks : List Task} (hn : (idsOf tasks).Nodup) :
    fillEdges tasks (tasks.map (fun u => (u.id, ([] : List String))))
        (tasks.map (fun u => (u.id, (0 : Int))))
      = (tasks.map (fun u => (u.id, edgeTargets tasks u.id)),
         tasks.map (fun u => (u.id, (pendingDeps tasks [] u : Int)))) := by
  have hnodup : tasks.Nodup := hn.of_map
  have main : ∀ (todo done : List Task), tasks = done ++ todo →
      todo.foldl
        (fun gd t =>
          t.dependencies.foldl
            (fun gd depId =>
              if dictContains gd.1 depId then
                (dictSet gd.1 depId ((dictLookup gd.1 depId).getD [] ++ [t.id]),
                 dictSet gd.2 t.id ((dictLookup gd.2 t.id).getD 0 + 1))
              else gd)
            gd)
        (tasks.map (fun u => (u.id, edgeTargets done u.id)),
         tasks.map (fun u => (u.id,
           if u ∈ done
             then (u.dependencies.countP (fun d => decide (d ∈ idsOf tasks)) : Int)
             else 0)))
      = (tasks.map (fun u => (u.id, edgeTargets tasks u.id)),
         tasks.map (fun u => (u.id,
           if u ∈ tasks
             then (u.dependencies.countP (fun d => decide (d ∈ idsOf tasks)) : Int)
             else 0))) := by
    intro todo
    induction todo with
    | nil =>
      intro done hsplit
      rw [List.foldl_nil, List.append_nil] at *
      rw [← hsplit]
    | cons t todo' ih =>
      intro done hsplit
      have ht : t ∈ tasks := by rw [hsplit]; exact List.mem_append_right _ (List.mem_cons_self _ _)
      have htdone : t ∉ done := by
        have := hsplit ▸ hnodup
        rcases (List.nodup_append.mp this).2.2 with hdisj
        intro hmem
        exact List.disjoint_left.mp hdisj hmem (List.mem_cons_self _ _)
      rw [List.foldl_cons, fillInner_eq hn ht]
      have hstep :
          (tasks.map (fun u => (u.id,
             edgeTargets done u.id ++ List.replicate (t.dependencies.count u.id) t.id)),
           tasks.map (fun u => (u.id,
             (if u ∈ done
                then (u.dependencies.countP (fun d => decide (d ∈ idsOf tasks)) : Int)
                else 0)
             + if u.id = t.id
                 then (t.dependencies.countP (fun d => decide (d ∈ idsOf tasks)) : Int)
                 else 0)))
          = (tasks.map (fun u => (u.id, edgeTargets (done ++ [t]) u.id)),
             tasks.map (fun u => (u.id,
               if u ∈ done ++ [t]
                 then (u.dependencies.countP (fun d => decide (d ∈ idsOf tasks)) : Int)
                 else 0))) := by
        refine congrArg₂ Prod.mk ?_ ?_
        · refine List.map_congr_left fun u _ => ?_
          rw [edgeTargets_append, edgeTargets_cons]
          simp [edgeTargets]
        · refine List.map_congr_left fun u hu => ?_
          by_cases hud : u ∈ done
          · have hune : u.id ≠ t.id := fun e => htdone (id_inj hn hu ht e ▸ hud)
            rw [if_pos hud, if_neg hune, if_pos (List.mem_append_left _ hud)]
            simp
          · by_cases hut : u.id = t.id
            · have hut' : u = t := id_inj hn hu ht hut
              rw [if_neg hud, if_pos hut, if_pos (by
                subst hut'
                exact List.mem_append_right _ (List.mem_cons_self _ _))]
              subst hut'
              simp
            · have : u ∉ done ++ [t] := by
                intro hmem
                rcases List.mem_append.mp hmem with h | h
                · exact hud h
                · rcases List.mem_cons.mp h with h | h
                  · exact hut (congrArg Task.id h)
                  · simp at h
              rw [if_neg hud, if_neg hut, if_neg this]
              simp
      rw [hstep, ih (done ++ [t]) (by rw [hsplit, List.append_assoc]; rfl)]
  have hstart := main tasks [] rfl
  have hdone : ∀ u ∈ tasks,
      (u.id, if u ∈ tasks
        then (u.dependencies.countP (fun d => decide (d ∈ idsOf tasks)) : Int) else 0)
      = (u.id, (pendingDeps tasks [] u : Int)) := by
    intro u hu
    rw [if_pos hu, pendingDeps_nil]
  unfold fillEdges
  have hinit : tasks.map (fun u => (u.id, edgeTargets ([] : List Task) u.id))
      = tasks.map (fun u => (u.id, ([] : List String))) := by
    refine List.map_congr_left fun u _ => ?_
    simp [edgeTargets]
  have hinitD : tasks.map (fun u => (u.id,
      if u ∈ ([] : List Task)
        then (u.dependencies.countP (fun d => decide (d ∈ idsOf tasks)) : Int) else 0))
      = tasks.map (fun u => (u.id, (0 : Int))) := by
    refine List.map_congr_left fun u _ => ?_
    simp
  rw [← hinit, ← hinitD, hstart]
  rw [List.map_congr_left hdone]

/-- Characterisation of the queue-seeding pass: in task order, the tasks
with no unmet existing dependency. -/
theorem seedQueue_eq {tasks : List Task} (hn : (idsOf tasks).Nodup) :
    seedQueue tasks (tasks.map (fun u => (u.id, (pendingDeps tasks [] u : Int))))
      = tasks.filter (fun u => pendingDeps tasks [] u == 0) := by
  have main : ∀ (ts : List Task) (q : List Task), (∀ u ∈ ts, u ∈ tasks) →
      (ts.map (fun u => (u.id, (pendingDeps tasks [] u : Int)))).foldl
        (fun q p =>
          if p.2 == (0 : Int) then
            match tasks.find? (fun t => t.id == p.1) with
            | some t => q ++ [t]
            | none => q
          else q)
        q
      = q ++ ts.filter (fun u => pendingDeps tasks [] u == 0) := by
    intro ts
    induction ts with
    | nil => intro q _; simp
    | cons a rest ih =>
      intro q hsub
      rw [List.map_cons, List.foldl_cons]
      by_cases ha : pendingDeps tasks [] a = 0
      · rw [if_pos (by simpa using ha)]
        rw [find_first_id hn (hsub a (List.mem_cons_self a rest))]
        rw [ih (q ++ [a]) (fun u hu => hsub u (List.mem_cons_of_mem a hu))]
        rw [List.filter_cons_of_pos (by simpa using ha), List.append_assoc]
        rfl
      · rw [if_neg (by simpa using ha)]
        rw [ih q (fun u hu => hsub u (List.mem_cons_of_mem a hu))]
        rw [List.filter_cons_of_neg (by simpa using ha)]
  exact main tasks [] (fun u hu => hu)

/-- Invariant preservation along the neighbour-processing fold.  Starting
with in-degrees that owe, beyond the pending count for the extended
output `S ++ [cur]`, exactly the edges still to be processed, the fold
ends with in-degrees equal to the new pending counts, enqueues exactly
the tasks whose pending count just reached zero, and enqueues each of
them once. -/
theorem pn_go {tasks : List Task} (hn : (idsOf tasks).Nodup)
    {S rest : List Task} {cur : Task} (hcur : cur ∈ tasks) (hcurS : cur.id ∉ idsOf S) :
    ∀ (es : List String) (q : List Task),
      (∃ pre, pre ++ es = edgeTargets tasks cur.id) →
      (∃ newly, q = rest ++ newly ∧
        (∀ t ∈ newly, t ∈ tasks ∧ pendingDeps tasks (S ++ [cur]) t = 0 ∧
          es.count t.id = 0 ∧ 0 < pendingDeps tasks S t) ∧
        (idsOf newly).Nodup) →
      (∀ t ∈ tasks, pendingDeps tasks (S ++ [cur]) t = 0 → 0 < pendingDeps tasks S t →
        es.count t.id = 0 → t ∈ q) →
      (es.foldl (pnStep tasks)
          (tasks.map (fun u => (u.id,
            ((pendingDeps tasks (S ++ [cur]) u + es.count u.id : Nat) : Int))), q)).1
          = tasks.map (fun u => (u.id, (pendingDeps tasks (S ++ [cur]) u : Int))) ∧
      (∃ newly,
        (es.foldl (pnStep tasks)
          (tasks.map (fun u => (u.id,
            ((pendingDeps tasks (S ++ [cur]) u + es.count u.id : Nat) : Int))), q)).2
            = rest ++ newly ∧
        (∀ t ∈ newly, t ∈ tasks ∧ pendingDeps tasks (S ++ [cur]) t = 0 ∧
          0 < pendingDeps tasks S t) ∧
        (idsOf newly).Nodup) ∧
      (∀ t ∈ tasks, pendingDeps tasks (S ++ [cur]) t = 0 → 0 < pendingDeps tasks S t →
        t ∈ (es.foldl (pnStep tasks)
          (tasks.map (fun u => (u.id,
            ((pendingDeps tasks (S ++ [cur]) u + es.count u.id : Nat) : Int))), q)).2) := by
  have hcurMem : cur.id ∈ idsOf tasks := mem_idsOf.mpr ⟨cur, hcur, rfl⟩
  intro es
  induction es with
  | nil =>
    intro q _ hq henq
    rw [List.foldl_nil]
    refine ⟨?_, ?_, ?_⟩
    · refine List.map_congr_left fun u _ => ?_
      simp
    · rcases hq with ⟨newly, rfl, hnewly, hnodup⟩
      exact ⟨newly, rfl, fun t ht =>
        ⟨(hnewly t ht).1, (hnewly t ht).2.1, (hnewly t ht).2.2.2⟩, hnodup⟩
    · intro t ht hz hpos
      exact henq t ht hz hpos (List.count_nil t.id)
  | cons nb es' ih =>
    intro q hsuffix hq henq
    rcases hsuffix with ⟨pre, hpre⟩
    have hnbmem : nb ∈ edgeTargets tasks cur.id := by
      rw [← hpre]
      exact List.mem_append_right pre (List.mem_cons_self nb es')
    rcases mem_idsOf.mp (mem_idsOf_of_mem_edgeTargets hnbmem) with ⟨w, hw, rfl⟩
    have hcnt_cons : (w.id :: es').count w.id = es'.count w.id + 1 := by
      simp [List.count_cons]
    have hwcount : es'.count w.id + 1 ≤ w.dependencies.count cur.id := by
      have h1 : (w.id :: es').count w.id ≤ (edgeTargets tasks cur.id).count w.id := by
        rw [← hpre, List.count_append]
        omega
      rw [count_edgeTargets_of_mem hn hw] at h1
      omega
    have hlk : dictLookup (tasks.map (fun u => (u.id,
        ((pendingDeps tasks (S ++ [cur]) u + (w.id :: es').count u.id : Nat) : Int)))) w.id
        = some ((pendingDeps tasks (S ++ [cur]) w + (w.id :: es').count w.id : Nat) : Int) :=
      dictLookup_map_self hn _ hw
    have hd1 : ((pendingDeps tasks (S ++ [cur]) w + (w.id :: es').count w.id : Nat) : Int) - 1
        = ((pendingDeps tasks (S ++ [cur]) w + es'.count w.id : Nat) : Int) := by
      rw [hcnt_cons]
      push_cast
      ring
    have hsetdeg : dictSet (tasks.map (fun u => (u.id,
          ((pendingDeps tasks (S ++ [cur]) u + (w.id :: es').count u.id : Nat) : Int)))) w.id
          (((pendingDeps tasks (S ++ [cur]) w + (w.id :: es').count w.id : Nat) : Int) - 1)
        = tasks.map (fun u => (u.id,
            ((pendingDeps tasks (S ++ [cur]) u + es'.count u.id : Nat) : Int))) := by
      rw [dictSet_map_self hn _ hw]
      refine List.map_congr_left fun u hu => ?_
      by_cases he : u.id = w.id
      · rw [if_pos he, hd1, id_inj hn hu hw he]
      · rw [if_neg he]
        have : (w.id :: es').count u.id = es'.count u.id := by
          simp [List.count_cons, he, fun e : w.id = u.id => he e.symm]
        rw [this]
    have hsuffix' : ∃ pre', pre' ++ es' = edgeTargets tasks cur.id :=
      ⟨pre ++ [w.id], by rw [List.append_assoc]; exact hpre⟩
    rcases hq with ⟨newly, rfl, hnewly, hnodupNew⟩
    have hnewly' : ∀ t ∈ newly, t ∈ tasks ∧ pendingDeps tasks (S ++ [cur]) t = 0 ∧
        es'.count t.id = 0 ∧ 0 < pendingDeps tasks S t := by
      intro t ht
      obtain ⟨h1, h2, h3, h4⟩ := hnewly t ht
      have : es'.count t.id = 0 := by
        rw [List.count_cons] at h3
        omega
      exact ⟨h1, h2, this, h4⟩
    by_cases hzero : pendingDeps tasks (S ++ [cur]) w + es'.count w.id = 0
    · -- the in-degree reaches zero: enqueue `w`
      have hz : ((pendingDeps tasks (S ++ [cur]) w + (w.id :: es').count w.id : Nat) : Int) - 1
          = 0 := by
        rw [hd1, hzero]
        rfl
      have hfind : tasks.find? (fun t => t.id == w.id) = some w := find_first_id hn hw
      rw [List.foldl_cons, pnStep_some_zero tasks _ hlk hz hfind, hsetdeg]
      have hpendS : 0 < pendingDeps tasks S w := by
        rw [pendingDeps_append_singleton hcurMem hcurS w]
        omega
      have hq' : ∃ newly', (rest ++ newly) ++ [w] = rest ++ newly' ∧
          (∀ t ∈ newly', t ∈ tasks ∧ pendingDeps tasks (S ++ [cur]) t = 0 ∧
            es'.count t.id = 0 ∧ 0 < pendingDeps tasks S t) ∧
          (idsOf newly').Nodup := by
        refine ⟨newly ++ [w], by rw [List.append_assoc], ?_, ?_⟩
        · intro t ht
          rcases List.mem_append.mp ht with h | h
          · exact hnewly' t h
          · rw [List.mem_singleton.mp h]
            exact ⟨hw, by omega, by omega, hpendS⟩
        · have hidsapp : idsOf (newly ++ [w]) = idsOf newly ++ [w.id] := by
            simp [idsOf]
          rw [hidsapp]
          refine List.Nodup.append hnodupNew (by simp) ?_
          intro x hx hxw
          rw [List.mem_singleton.mp hxw] at hx
          rcases mem_idsOf.mp hx with ⟨t, ht, htid⟩
          have := (hnewly t ht).2.2.1
          rw [← htid] at this
          rw [List.count_cons] at this
          simp [htid] at this
      have henq' : ∀ t ∈ tasks, pendingDeps tasks (S ++ [cur]) t = 0 →
          0 < pendingDeps tasks S t → es'.count t.id = 0 → t ∈ (rest ++ newly) ++ [w] := by
        intro t ht h1 h2 h3
        by_cases he : t.id = w.id
        · rw [id_inj hn ht hw he]
          exact List.mem_append_right _ (List.mem_singleton.mpr rfl)
        · have hwt : ¬ w.id = t.id := fun e => he e.symm
          have : (w.id :: es').count t.id = 0 := by
            simpa [List.count_cons, hwt] using h3
          exact List.mem_append_left _ (henq t ht h1 h2 this)
      exact ih ((rest ++ newly) ++ [w]) hsuffix' hq' henq'
    · -- the in-degree stays positive: only the decrement happens
      have hz : ((pendingDeps tasks (S ++ [cur]) w + (w.id :: es').count w.id : Nat) : Int) - 1
          ≠ 0 := by
        rw [hd1]
        intro hcontra
        exact hzero (by exact_mod_cast hcontra)
      rw [List.foldl_cons, pnStep_some_ne tasks _ hlk hz, hsetdeg]
      have henq' : ∀ t ∈ tasks, pendingDeps tasks (S ++ [cur]) t = 0 →
          0 < pendingDeps tasks S t → es'.count t.id = 0 → t ∈ rest ++ newly := by
        intro t ht h1 h2 h3
        by_cases he : t.id = w.id
        · exfalso
          have htw : t = w := id_inj hn ht hw he
          rw [htw] at h1 h3
          exact hzero (by omega)
        · have hwt : ¬ w.id = t.id := fun e => he e.symm
          have : (w.id :: es').count t.id = 0 := by
            simpa [List.count_cons, hwt] using h3
          exact henq t ht h1 h2 this
      exact ih (rest ++ newly) hsuffix' ⟨newly, rfl, hnewly', hnodupNew⟩ henq'

/-- Appending a task whose existing dependencies are all in `S` keeps the
output dependency-ordered. -/
theorem orderedDeps_snoc {tasks S : List Task} {cur : Task}
    (hord : OrderedDeps tasks S)
    (hcur : ∀ d ∈ cur.dependencies, d ∈ idsOf tasks → d ∈ idsOf S) :
    OrderedDeps tasks (S ++ [cur]) := by
  intro i d hd hmem
  by_cases hi : i.val < S.length
  · have hget : (S ++ [cur]).get i = S.get ⟨i.val, hi⟩ := by
      rw [List.get_eq_getElem, List.get_eq_getElem]
      exact List.getElem_append_left hi
    have htake : (S ++ [cur]).take i.val = S.take i.val := by
      rw [List.take_append_eq_append_take, Nat.sub_eq_zero_of_le (Nat.le_of_lt hi)]
      simp
    rw [htake]
    rw [hget] at hd
    exact hord ⟨i.val, hi⟩ d hd hmem
  · have hieq : i.val = S.length := by
      have h2 : i.val < S.length + 1 := by
        simpa using i.isLt
      omega
    have hget : (S ++ [cur]).get i = cur := by
      rw [List.get_eq_getElem]
      rw [List.getElem_append_right (le_of_eq hieq.symm)]
      simp [hieq]
    have htake : (S ++ [cur]).take i.val = S := by
      rw [hieq]
      exact List.take_left S [cur]
    rw [htake]
    rw [hget] at hd
    exact hcur d hd hmem

/-- One iteration of Kahn's loop preserves the invariant: popping `cur`
and processing its adjacency list yields the invariant for `S ++ [cur]`. -/
theorem kahn_step {tasks : List Task} (hn : (idsOf tasks).Nodup)
    {deg : Dict Int} {cur : Task} {rest S : List Task}
    (inv : KahnInv tasks deg (cur :: rest) S) :
    KahnInv tasks
      (processNeighbors tasks
        ((dictLookup (tasks.map (fun u => (u.id, edgeTargets tasks u.id))) cur.id).getD [])
        deg rest).1
      (processNeighbors tasks
        ((dictLookup (tasks.map (fun u => (u.id, edgeTargets tasks u.id))) cur.id).getD [])
        deg rest).2
      (S ++ [cur]) := by
  have hcurQ : cur ∈ S ++ cur :: rest :=
    List.mem_append_right S (List.mem_cons_self cur rest)
  have hcur : cur ∈ tasks := inv.sub cur hcurQ
  have hcurMem : cur.id ∈ idsOf tasks := mem_idsOf.mpr ⟨cur, hcur, rfl⟩
  have hidsplit : idsOf (S ++ cur :: rest) = idsOf S ++ cur.id :: idsOf rest := by
    simp [idsOf]
  have hnodup := inv.nodupIds
  rw [hidsplit] at hnodup
  have hcurS : cur.id ∉ idsOf S := by
    intro hmem
    rcases List.nodup_append.mp hnodup with ⟨_, _, hdisj⟩
    exact List.disjoint_left.mp hdisj hmem (List.mem_cons_self _ _)
  have hns : (dictLookup (tasks.map (fun u => (u.id, edgeTargets tasks u.id))) cur.id).getD []
      = edgeTargets tasks cur.id := by
    rw [dictLookup_map_self hn _ hcur]
    rfl
  have hdegED : deg = tasks.map (fun u => (u.id,
      ((pendingDeps tasks (S ++ [cur]) u
        + (edgeTargets tasks cur.id).count u.id : Nat) : Int))) := by
    rw [inv.degEq]
    refine List.map_congr_left fun u hu => ?_
    rw [count_edgeTargets_of_mem hn hu,
      pendingDeps_append_singleton hcurMem hcurS u]
  have hsuffix : ∃ pre, pre ++ edgeTargets tasks cur.id = edgeTargets tasks cur.id :=
    ⟨[], rfl⟩
  have hq0 : ∃ newly, rest = rest ++ newly ∧
      (∀ t ∈ newly, t ∈ tasks ∧ pendingDeps tasks (S ++ [cur]) t = 0 ∧
        (edgeTargets tasks cur.id).count t.id = 0 ∧ 0 < pendingDeps tasks S t) ∧
      (idsOf newly).Nodup :=
    ⟨[], (List.append_nil rest).symm, by simp, List.nodup_nil⟩
  have henq0 : ∀ t ∈ tasks, pendingDeps tasks (S ++ [cur]) t = 0 →
      0 < pendingDeps tasks S t → (edgeTargets tasks cur.id).count t.id = 0 → t ∈ rest := by
    intro t ht h1 h2 h3
    exfalso
    rw [count_edgeTargets_of_mem hn ht] at h3
    rw [pendingDeps_append_singleton hcurMem hcurS t] at h2
    omega
  have hmain := pn_go hn hcur hcurS (edgeTargets tasks cur.id) rest hsuffix hq0 henq0
  -- transport along the dictionary characterisation
  have hpn : processNeighbors tasks
      ((dictLookup (tasks.map (fun u => (u.id, edgeTargets tasks u.id))) cur.id).getD [])
      deg rest
      = (edgeTargets tasks cur.id).foldl (pnStep tasks)
        (tasks.map (fun u => (u.id,
          ((pendingDeps tasks (S ++ [cur]) u
            + (edgeTargets tasks cur.id).count u.id : Nat) : Int))), rest) := by
    rw [hns, ← hdegED]
    rfl
  obtain ⟨hdegF, ⟨newly, hq2, hnewly, hnodupN⟩, henqF⟩ := hmain
  rw [hpn]
  have hready : ∀ t ∈ rest, pendingDeps tasks (S ++ [cur]) t = 0 := by
    intro t ht
    have h1 := inv.ready t (List.mem_cons_of_mem cur ht)
    have h2 := pendingDeps_append_le tasks S [cur] t
    omega
  have hnewlyFresh : ∀ t ∈ newly, t ∉ S ++ cur :: rest := by
    intro t ht hmem
    have hpos := (hnewly t ht).2.2
    rcases List.mem_append.mp hmem with h | h
    · rw [pendingDeps_eq_zero_of_ordered inv.ordered h] at hpos
      omega
    · have := inv.ready t h
      omega
  refine ⟨?_, ?_, ?_, ?_, ?_, ?_⟩
  · -- sub
    intro t ht
    rw [hq2] at ht
    have hshape : (S ++ [cur]) ++ (rest ++ newly) = (S ++ cur :: rest) ++ newly := by
      simp
    rw [hshape] at ht
    rcases List.mem_append.mp ht with h | h
    · exact inv.sub t h
    · exact (hnewly t h).1
  · -- nodupIds
    rw [hq2]
    have hshape : (S ++ [cur]) ++ (rest ++ newly) = (S ++ cur :: rest) ++ newly := by
      simp
    rw [hshape]
    have hids : idsOf ((S ++ cur :: rest) ++ newly)
        = idsOf (S ++ cur :: rest) ++ idsOf newly := by
      simp [idsOf]
    rw [hids]
    refine List.Nodup.append inv.nodupIds hnodupN ?_
    intro x hx hx'
    rcases mem_idsOf.mp hx with ⟨u, hu, rfl⟩
    rcases mem_idsOf.mp hx' with ⟨t, ht, htid⟩
    have hut : u = t := id_inj hn (inv.sub u hu) (hnewly t ht).1 htid.symm
    exact hnewlyFresh t ht (hut ▸ hu)
  · -- degEq
    exact hdegF
  · -- ready
    intro t ht
    rw [hq2] at ht
    rcases List.mem_append.mp ht with h | h
    · exact hready t h
    · exact (hnewly t h).2.1
  · -- ordered
    refine orderedDeps_snoc inv.ordered ?_
    have h0 := inv.ready cur (List.mem_cons_self cur rest)
    exact pendingDeps_eq_zero_iff.mp h0
  · -- unseen
    intro t ht hnot
    by_contra hzero
    have hz : pendingDeps tasks (S ++ [cur]) t = 0 := by omega
    by_cases hS : 0 < pendingDeps tasks S t
    · exact hnot (List.mem_append_right _ (henqF t ht hz hS))
    · have hz0 : pendingDeps tasks S t = 0 := by omega
      have hmem : t ∈ S ++ cur :: rest := by
        by_contra hmem
        have := inv.unseen t ht hmem
        omega
      apply hnot
      rcases List.mem_append.mp hmem with h | h
      · exact List.mem_append_left _ (List.mem_append_left _ h)
      · rcases List.mem_cons.mp h with h | h
        · exact List.mem_append_left _
            (List.mem_append_right _ (h ▸ List.mem_singleton.mpr rfl))
        · rw [hq2]
          exact List.mem_append_right _ (List.mem_append_left _ h)

/-- Running the `while queue:` loop to completion from any state
satisfying the invariant (with enough fuel) empties the queue and yields a
state satisfying the invariant. -/
theorem kahn_loop {tasks : List Task} (hn : (idsOf tasks).Nodup) :
    ∀ (fuel : Nat) (deg : Dict Int) (Q S : List Task),
      Q.length + degSum deg ≤ fuel → KahnInv tasks deg Q S →
      ∃ degF, KahnInv tasks degF []
        (kahnLoopGo tasks (tasks.map (fun u => (u.id, edgeTargets tasks u.id)))
          fuel deg Q S) := by
  intro fuel
  induction fuel with
  | zero =>
    intro deg Q S hfuel inv
    cases Q with
    | nil => exact ⟨deg, inv⟩
    | cons cur rest =>
      simp only [List.length_cons] at hfuel
      omega
  | succ fuel ih =>
    intro deg Q S hfuel inv
    cases Q with
    | nil => exact ⟨deg, inv⟩
    | cons cur rest =>
      simp only [kahnLoopGo]
      have hm := pn_measure tasks
        ((dictLookup (tasks.map (fun u => (u.id, edgeTargets tasks u.id))) cur.id).getD [])
        deg rest
      have hfuel2 : rest.length + degSum deg ≤ fuel := by
        simp only [List.length_cons] at hfuel
        omega
      exact ih _ _ _ (le_trans hm hfuel2) (kahn_step hn inv)

/-- The state entering the loop — the in-degree dictionary after the
edge-filling pass and the seeded queue — satisfies the invariant with an
empty partial output. -/
theorem init_inv {tasks : List Task} (hn : (idsOf tasks).Nodup) :
    KahnInv tasks (tasks.map (fun u => (u.id, (pendingDeps tasks [] u : Int))))
      (tasks.filter (fun u => pendingDeps tasks [] u == 0)) [] := by
  refine ⟨?_, ?_, rfl, ?_, ?_, ?_⟩
  · intro t ht
    rw [List.nil_append] at ht
    exact List.mem_of_mem_filter ht
  · rw [List.nil_append]
    have hsub : List.Sublist (tasks.filter (fun u => pendingDeps tasks [] u == 0)) tasks :=
      List.filter_sublist tasks
    exact List.Nodup.sublist (hsub.map Task.id) hn
  · intro t ht
    have := List.of_mem_filter ht
    simpa using this
  · intro i
    exact absurd i.isLt (by simp)
  · intro t ht hmem
    rw [List.nil_append] at hmem
    have hne : ¬ (pendingDeps tasks [] t == 0) = true :=
      fun h => hmem (List.mem_filter.mpr ⟨ht, h⟩)
    simp only [beq_iff_eq] at hne
    omega

/-- `_topological_sort` computes some list `R` reachable by Kahn's loop
(so `R` satisfies the final invariant) and returns it iff its length
matches the input; otherwise it raises the cycle error. -/
theorem topologicalSort_inv {tasks : List Task} (hn : (idsOf tasks).Nodup) :
    ∃ R degF, KahnInv tasks degF [] R ∧
      topologicalSort tasks =
        if R.length != tasks.length then Except.error cycleErrorMsg
        else Except.ok R := by
  obtain ⟨degF, invF⟩ :=
    kahn_loop hn
      ((tasks.filter (fun u => pendingDeps tasks [] u == 0)).length
        + degSum (tasks.map (fun u => (u.id, (pendingDeps tasks [] u : Int)))))
      (tasks.map (fun u => (u.id, (pendingDeps tasks [] u : Int))))
      (tasks.filter (fun u => pendingDeps tasks [] u == 0))
      [] (Nat.le_refl _) (init_inv hn)
  refine ⟨_, degF, invF, ?_⟩
  simp only [topologicalSort]
  rw [initGraph_eq hn, initInDegree_eq hn, fillEdges_eq hn]
  dsimp only
  rw [seedQueue_eq hn]

/-- Every member of a dependency cycle has another cycle member among its
dependencies. -/
theorem cycle_successor {tasks c : List Task} (hc : IsCycle tasks c) :
    ∀ t ∈ c, ∃ u ∈ c, u.id ∈ t.dependencies := by
  obtain ⟨hne, hmem, hchain⟩ := hc
  intro t ht
  have hpos : 0 < c.length := List.length_pos.mpr hne
  have hlen : (c ++ c.take 1).length = c.length + 1 := by
    rw [List.length_append, List.length_take]
    omega
  rcases List.mem_iff_get.mp ht with ⟨i, rfl⟩
  have hchain2 := List.chain'_iff_get.mp hchain
  have hi : i.val < (c ++ c.take 1).length - 1 := by
    rw [hlen]
    have := i.isLt
    omega
  have hr := hchain2 i.val hi
  have hgetl : (c ++ c.take 1).get ⟨i.val, by rw [hlen]; omega⟩ = c.get i := by
    simp only [List.get_eq_getElem]
    exact List.getElem_append_left i.isLt
  have humem : (c ++ c.take 1).get
      ⟨i.val + 1, by rw [hlen]; have := i.isLt; omega⟩ ∈ c := by
    by_cases h2 : i.val + 1 < c.length
    · have hg : (c ++ c.take 1).get
          ⟨i.val + 1, by rw [hlen]; have := i.isLt; omega⟩ = c.get ⟨i.val + 1, h2⟩ := by
        simp only [List.get_eq_getElem]
        exact List.getElem_append_left h2
      rw [hg]
      exact List.mem_iff_get.mpr ⟨⟨i.val + 1, h2⟩, rfl⟩
    · have h3 : i.val + 1 = c.length := by
        have := i.isLt
        omega
      have hg : (c ++ c.take 1).get
          ⟨i.val + 1, by rw [hlen]; have := i.isLt; omega⟩ = c.get ⟨0, hpos⟩ := by
        simp only [List.get_eq_getElem]
        rw [List.getElem_append_right (le_of_eq h3.symm)]
        simp [h3, List.getElem_take]
      rw [hg]
      exact List.mem_iff_get.mpr ⟨⟨0, hpos⟩, rfl⟩
  refine ⟨(c ++ c.take 1).get ⟨i.val + 1, by rw [hlen]; have := i.isLt; omega⟩,
    humem, ?_⟩
  rw [← hgetl]
  exact hr

/-- No member of a dependency cycle ever appears in an output satisfying
the final loop invariant. -/
theorem cycle_not_scheduled {tasks R c : List Task} {degF : Dict Int}
    (hn : (idsOf tasks).Nodup) (inv : KahnInv tasks degF [] R)
    (hc : IsCycle tasks c) : ∀ t ∈ c, t ∉ R := by
  have main : ∀ i, ∀ (hi : i < R.length), R.get ⟨i, hi⟩ ∉ c := by
    intro i
    induction i using Nat.strong_induction_on with
    | _ i ih =>
      intro hi htc
      obtain ⟨u, huc, hudep⟩ := cycle_successor hc _ htc
      have humem : u ∈ tasks := hc.2.1 u huc
      have huid : u.id ∈ idsOf tasks := mem_idsOf.mpr ⟨u, humem, rfl⟩
      have hord := inv.ordered ⟨i, hi⟩ u.id hudep huid
      rcases mem_idsOf.mp hord with ⟨w, hw, hwid⟩
      have hwR : w ∈ R := List.mem_of_mem_take hw
      have hwt : w ∈ tasks := inv.sub w (by simpa using hwR)
      have hwu : w = u := id_inj hn hwt humem hwid
      subst hwu
      rcases List.mem_iff_get.mp hw with ⟨j, hjw⟩
      have hjlt : j.val < i := by
        have := j.isLt
        simp only [List.length_take] at this
        omega
      have hjR : j.val < R.length := lt_trans hjlt hi
      have hj2 : (R.take i).get j = R.get ⟨j.val, hjR⟩ := by
        simp only [List.get_eq_getElem]
        exact List.getElem_take R
      exact ih j.val hjlt hjR (by rw [← hj2, hjw]; exact huc)
  intro t htc htR
  rcases List.mem_iff_get.mp htR with ⟨i, hti⟩
  have hmem : R.get ⟨i.val, i.isLt⟩ ∈ c := by
    have hEta : (⟨i.val, i.isLt⟩ : Fin R.length) = i := rfl
    rw [hEta, hti]
    exact htc
  exact main i.val i.isLt hmem

/-- If the loop invariant holds with an empty queue but some task is left
out of the output, then the tasks contain a dependency cycle: every
unscheduled task has an unscheduled dependency, and iterating this
successor map through the finite task list must repeat. -/
theorem exists_cycle_of_stuck {tasks R : List Task} {degF : Dict Int}
    (inv : KahnInv tasks degF [] R)
    {t₀ : Task} (ht₀ : t₀ ∈ tasks) (hnR : t₀ ∉ R) :
    ∃ c, IsCycle tasks c := by
  classical
  have step : ∀ t, t ∈ tasks ∧ t ∉ R →
      ∃ u, (u ∈ tasks ∧ u ∉ R) ∧ u.id ∈ t.dependencies := by
    rintro t ⟨ht, htR⟩
    have hpos : 0 < pendingDeps tasks R t := inv.unseen t ht (by simpa using htR)
    simp only [pendingDeps] at hpos
    obtain ⟨d, hd, hdp⟩ := List.countP_pos_iff.mp hpos
    simp only [Bool.and_eq_true, Bool.not_eq_true', decide_eq_true_eq,
      decide_eq_false_iff_not] at hdp
    obtain ⟨hdmem, hdnot⟩ := hdp
    rcases mem_idsOf.mp hdmem with ⟨u, hu, rfl⟩
    exact ⟨u, ⟨hu, fun huR => hdnot (mem_idsOf.mpr ⟨u, huR, rfl⟩)⟩, hd⟩
  let f : Task → Task := fun t =>
    if h : t ∈ tasks ∧ t ∉ R then Classical.choose (step t h) else t
  have hf : ∀ t (h : t ∈ tasks ∧ t ∉ R),
      (f t ∈ tasks ∧ f t ∉ R) ∧ (f t).id ∈ t.dependencies := by
    intro t h
    have hfe : f t = Classical.choose (step t h) := dif_pos h
    rw [hfe]
    exact Classical.choose_spec (step t h)
  have hgP : ∀ n, f^[n] t₀ ∈ tasks ∧ f^[n] t₀ ∉ R := by
    intro n
    induction n with
    | zero => exact ⟨ht₀, hnR⟩
    | succ n ih =>
      have hstep : f^[n + 1] t₀ = f (f^[n] t₀) := Function.iterate_succ_apply' f n t₀
      rw [hstep]
      exact (hf _ ih).1
  have hrel : ∀ n, (f^[n + 1] t₀).id ∈ (f^[n] t₀).dependencies := by
    intro n
    have hstep : f^[n + 1] t₀ = f (f^[n] t₀) := Function.iterate_succ_apply' f n t₀
    rw [hstep]
    exact (hf _ (hgP n)).2
  obtain ⟨a, b, hab, habeq⟩ :=
    Fintype.exists_ne_map_eq_of_card_lt
      (fun i : Fin (tasks.length + 1) =>
        (⟨tasks.indexOf (f^[i.val] t₀), List.indexOf_lt_length.mpr (hgP i.val).1⟩
          : Fin tasks.length))
      (by simp)
  have hIdx : tasks.indexOf (f^[a.val] t₀) = tasks.indexOf (f^[b.val] t₀) := by
    have := congrArg Fin.val habeq
    simpa using this
  have hgeq : f^[a.val] t₀ = f^[b.val] t₀ :=
    (List.indexOf_inj (hgP a.val).1 (hgP b.val).1).mp hIdx
  have hvalne : a.val ≠ b.val := fun h => hab (Fin.ext h)
  obtain ⟨i, j, hij, hgij⟩ : ∃ i j : Nat, i < j ∧ f^[i] t₀ = f^[j] t₀ := by
    rcases Nat.lt_or_ge a.val b.val with h | h
    · exact ⟨a.val, b.val, h, hgeq⟩
    · exact ⟨b.val, a.val, lt_of_le_of_ne h (Ne.symm hvalne), hgeq.symm⟩
  refine ⟨(List.range (j - i)).map (fun k => f^[i + k] t₀), ?_, ?_, ?_⟩
  · intro hnil
    have := congrArg List.length hnil
    simp at this
    omega
  · intro u hu
    rcases List.mem_map.mp hu with ⟨k, _, rfl⟩
    exact (hgP (i + k)).1
  · set m := j - i with hmdef
    have hm1 : 1 ≤ m := by omega
    have htake1 : ((List.range m).map (fun k => f^[i + k] t₀)).take 1
        = [f^[i] t₀] := by
      rw [← List.map_take, List.take_range]
      have hmin : min 1 m = 1 := by omega
      rw [hmin]
      rfl
    rw [htake1]
    have hlen : ((List.range m).map (fun k => f^[i + k] t₀) ++ [f^[i] t₀]).length
        = m + 1 := by simp
    have hget : ∀ (p : Nat) (hp : p < m + 1),
        ((List.range m).map (fun k => f^[i + k] t₀) ++ [f^[i] t₀]).get
          ⟨p, by rw [hlen]; omega⟩ = f^[i + p] t₀ := by
      intro p hp
      simp only [List.get_eq_getElem]
      by_cases hpm : p < m
      · rw [List.getElem_append_left (by simpa using hpm)]
        simp
      · have hpe : p = m := by omega
        subst hpe
        rw [List.getElem_append_right (by simp)]
        simp only [List.length_map, List.length_range, Nat.sub_self,
          List.getElem_singleton]
        have hje : i + m = j := by omega
        rw [hje, ← hgij]
    refine List.chain'_iff_get.mpr ?_
    intro n hlt
    have hlt2 : n < m := by
      rw [hlen] at hlt
      omega
    rw [hget n (by omega), hget (n + 1) (by omega)]
    have harith : i + (n + 1) = (i + n) + 1 := by omega
    rw [harith]
    exact hrel (i + n)

/-- If the dependency ids admit a strictly decreasing rank, the task list
has no dependency cycle.  Used to discharge acyclicity on concrete
inputs. -/
theorem no_cycle_of_rank {tasks : List Task} (rank : String → Nat)
    (hr : ∀ t ∈ tasks, ∀ d ∈ t.dependencies, d ∈ idsOf tasks → rank d < rank t.id) :
    ¬ ∃ c, IsCycle tasks c := by
  rintro ⟨c, hc⟩
  have main : ∀ n, ∀ t ∈ c, rank t.id < n → False := by
    intro n
    induction n with
    | zero =>
      intro t _ h
      omega
    | succ n ih =>
      intro t ht h
      obtain ⟨u, huc, hudep⟩ := cycle_successor hc t ht
      have hu : u ∈ tasks := hc.2.1 u huc
      have ht2 : t ∈ tasks := hc.2.1 t ht
      have huid : u.id ∈ idsOf tasks := mem_idsOf.mpr ⟨u, hu, rfl⟩
      have hlt := hr t ht2 u.id hudep huid
      exact ih u huc (by omega)
  obtain ⟨t, ht⟩ := List.exists_mem_of_ne_nil c hc.1
  exact main (rank t.id + 1) t ht (Nat.lt_succ_self _)

/-- C1: for every task list with unique ids (the data-model invariant)
whose dependency relation is acyclic, `_topological_sort` returns a
permutation of the input in which every task appears after all of its
declared dependencies that exist in the list; the output is a
deterministic function of the input; and on the scenario tasks A (no
dependencies), B (depends on A), C (depends on A), declared in that
order, it returns exactly [A, B, C] — A before B and C, and B before C. -/
theorem c1_scheduler_topological_order (tasks : List Task)
    (hn : (idsOf tasks).Nodup) (hacyc : ¬ ∃ c, IsCycle tasks c) :
    (∃ l, topologicalSort tasks = Except.ok l ∧ l.Perm tasks ∧ OrderedDeps tasks l)
      ∧ (∀ l₁ l₂, topologicalSort tasks = Except.ok l₁ →
          topologicalSort tasks = Except.ok l₂ → l₁ = l₂)
      ∧ topologicalSort [taskA, taskB, taskC] = Except.ok [taskA, taskB, taskC] := by
  obtain ⟨R, degF, invF, heq⟩ := topologicalSort_inv hn
  have hcomplete : ∀ t ∈ tasks, t ∈ R := by
    intro t ht
    by_contra htR
    exact hacyc (exists_cycle_of_stuck invF ht htR)
  have hRsub : ∀ t ∈ R, t ∈ tasks := fun t ht => invF.sub t (by simpa using ht)
  have hRidsNodup : (idsOf R).Nodup := by
    have := invF.nodupIds
    simpa using this
  have hRnodup : R.Nodup := List.Nodup.of_map Task.id hRidsNodup
  have htasksNodup : tasks.Nodup := List.Nodup.of_map Task.id hn
  have hsp1 : List.Subperm R tasks := hRnodup.subperm hRsub
  have hsp2 : List.Subperm tasks R := htasksNodup.subperm hcomplete
  have hperm : R.Perm tasks := hsp1.perm_of_length_le hsp2.length_le
  refine ⟨⟨R, ?_, hperm, invF.ordered⟩, ?_, rfl⟩
  · rw [heq]
    have hcond : (R.length != tasks.length) = false := by
      simp [hperm.length_eq]
    rw [hcond]
    rfl
  · intro l₁ l₂ h1 h2
    rw [h1] at h2
    exact Except.ok.inj h2

/-- Witness for `c1_scheduler_topological_order`: the scenario tasks A, B,
C have unique ids and admit a strictly decreasing dependency rank, and the
scheduler orders them as [A, B, C]. -/
theorem c1_scheduler_topological_order_witness :
    (∃ l, topologicalSort [taskA, taskB, taskC] = Except.ok l ∧
        l.Perm [taskA, taskB, taskC] ∧ OrderedDeps [taskA, taskB, taskC] l)
      ∧ (∀ l₁ l₂, topologicalSort [taskA, taskB, taskC] = Except.ok l₁ →
          topologicalSort [taskA, taskB, taskC] = Except.ok l₂ → l₁ = l₂)
      ∧ topologicalSort [taskA, taskB, taskC] = Except.ok [taskA, taskB, taskC] :=
  c1_scheduler_topological_order [taskA, taskB, taskC] (by decide)
    (no_cycle_of_rank (fun s => if s = "A" then 0 else 1) (by decide))

/-- C2: for every task list with unique ids (the data-model invariant)
whose dependency relation contains a cycle, `_topological_sort` raises the
cyclic-dependency `ValueError` and never returns a partial ordering. -/
theorem c2_cycle_detected (tasks c : List Task) (hn : (idsOf tasks).Nodup)
    (hc : IsCycle tasks c) :
    topologicalSort tasks = Except.error cycleErrorMsg := by
  obtain ⟨R, degF, invF, heq⟩ := topologicalSort_inv hn
  rw [heq]
  have hne : R.length ≠ tasks.length := by
    intro hlen
    have hRsub : ∀ t ∈ R, t ∈ tasks := fun t ht => invF.sub t (by simpa using ht)
    have hRidsNodup : (idsOf R).Nodup := by
      have := invF.nodupIds
      simpa using this
    have hRnodup : R.Nodup := List.Nodup.of_map Task.id hRidsNodup
    have hsp : List.Subperm R tasks := hRnodup.subperm hRsub
    have hperm : R.Perm tasks := hsp.perm_of_length_le (le_of_eq hlen.symm)
    obtain ⟨t, ht⟩ := List.exists_mem_of_ne_nil c hc.1
    have htasks : t ∈ tasks := hc.2.1 t ht
    have htR : t ∈ R := hperm.mem_iff.mpr htasks
    exact cycle_not_scheduled hn invF hc t ht htR
  have hcond : (R.length != tasks.length) = true := bne_iff_ne.mpr hne
  rw [hcond]
  rfl

/-- Witness for `c2_cycle_detected`: the mutually dependent pair P, Q is a
cycle, and the scheduler raises the cyclic-dependency error on it. -/
theorem c2_cycle_detected_witness :
    topologicalSort [taskP, taskQ] = Except.error cycleErrorMsg :=
  c2_cycle_detected [taskP, taskQ] [taskP, taskQ] (by decide)
    ⟨by decide, by decide,
      show List.Chain' (fun a b => b.id ∈ a.dependencies) [taskP, taskQ, taskP] from
        List.chain'_cons.mpr ⟨by decide,
          List.chain'_cons.mpr ⟨by decide, List.chain'_singleton _⟩⟩⟩

/-- Witness for `c10_oracle_failure_preserves`: a failed repair followed
by the write leaves a file whose content starts with an import line
untouched. -/
theorem c10_oracle_failure_preserves_witness :
    fixCodeApply failedOracleResponse "import os\nprint(3)".data = "import os\nprint(3)".data ∧
    writeCodeToFile (fixCodeApply failedOracleResponse "import os\nprint(3)".data)
        "import os\nx = 1".data
      = "import os\nprint(3)".data :=
  ⟨(c10_oracle_failure_preserves failedOracleResponse "import os\nprint(3)".data
      "import os\nx = 1".data rfl).1,
   (c10_oracle_failure_preserves failedOracleResponse "import os\nprint(3)".data
      "import os\nx = 1".data rfl).2 (Or.inl (by decide))⟩

end VibeFactory
